import Mathlib

/-!
Verification development for the cokacdir file-management core.

The repository ships documentation (README.md, CHANGELOG.md, SECURITY.md) and a
marketing website; the file manager's implementation itself is not part of this
source set (spec.md section 1 states this explicitly).  The definitions below
therefore fall in two groups:

* keyboard binding tables transcribed verbatim from `src/README.md` and
  `src/website/src/components/Shortcuts.tsx` (real source material), and
* models of the missing core (panel model, file-operation engine, process
  manager), each marked `Modelled from the spec:` in its doc comment and kept
  faithful to the wording of spec.md sections 3 to 5.
-/

namespace Cokacdir

/-- Modelled from the spec: the kind of one filesystem object as carried by a
`DirectoryEntry` (spec section 3: "kind (file, directory, symlink)"). -/
inductive EntryKind where
  | file
  | directory
  | symlink
deriving DecidableEq

/-- Modelled from the spec: one filesystem object snapshot shown in a panel
(spec section 3, `DirectoryEntry`): absolute path, display name, kind, byte
size, last-modified timestamp, permission bits.  Immutable snapshot. -/
structure DirectoryEntry where
  path : String
  name : String
  kind : EntryKind
  size : Nat
  mtime : Nat
  perms : Nat
deriving DecidableEq

/-- Modelled from the spec: panel sort keys (spec section 3: "active sort key
and direction (name | size | date, ascending/descending)"). -/
inductive SortKey where
  | name
  | size
  | date
deriving DecidableEq

/-- Modelled from the spec: the error taxonomy of spec section 7. -/
inductive FMError where
  | notFound
  | permissionDenied
  | alreadyExists
  | notADirectory
  | busy
  | ioFailure (reason : String)
deriving DecidableEq

/-- ASCII lowercasing of one character, used for the case-insensitive name
comparator of spec section 4.1. -/
def lowerChar (c : Char) : Char :=
  if 65 ≤ c.toNat ∧ c.toNat ≤ 90 then Char.ofNat (c.toNat + 32) else c

/-- ASCII lowercasing of a display name, as its character list (spec section 4.1: "name —
case-insensitive lexicographic"). -/
def lowerName (s : String) : List Char :=
  s.data.map lowerChar

/-- Modelled from the spec: the fixed directories-first rank used by all sort
comparators (spec section 4.1: "a fixed policy (directories-first, then by
key)").  Directories rank 0, everything else 1. -/
def dirRank (e : DirectoryEntry) : Nat :=
  if e.kind = EntryKind.directory then 0 else 1

/-- Generic comparator: directories first, then the key projection `f`, ties
broken by case-sensitive display name (spec section 4.1 describes each key
comparator as a primary key with a name tie-break). -/
def pinLe {β : Type} [LinearOrder β] (f : DirectoryEntry → β)
    (a b : DirectoryEntry) : Prop :=
  dirRank a < dirRank b ∨
    (dirRank a = dirRank b ∧ (f a < f b ∨ (f a = f b ∧ a.name.data ≤ b.name.data)))

instance {β : Type} [LinearOrder β] (f : DirectoryEntry → β) :
    DecidableRel (pinLe f) := fun a b => by
  unfold pinLe; infer_instance

/-- Modelled from the spec: the comparator for a sort key and direction
(spec section 4.1): name is case-insensitive lexicographic; size is numeric;
date orders by modification timestamp descending; each tie-broken by name.
The descending direction dualises the key part while the directories-first
pin and the name tie-break stay fixed. -/
def entryRel : SortKey → Bool → DirectoryEntry → DirectoryEntry → Prop
  | SortKey.name, true => pinLe (fun e => lowerName e.name)
  | SortKey.name, false => pinLe (fun e => OrderDual.toDual (lowerName e.name))
  | SortKey.size, true => pinLe (fun e => e.size)
  | SortKey.size, false => pinLe (fun e => OrderDual.toDual e.size)
  | SortKey.date, true => pinLe (fun e => OrderDual.toDual e.mtime)
  | SortKey.date, false => pinLe (fun e => e.mtime)

instance (k : SortKey) (d : Bool) : DecidableRel (entryRel k d) := by
  cases k <;> cases d <;> (unfold entryRel; infer_instance)

instance {β : Type} [LinearOrder β] (f : DirectoryEntry → β) :
    IsTotal DirectoryEntry (pinLe f) := by
  constructor
  intro a b
  unfold pinLe
  rcases lt_trichotomy (dirRank a) (dirRank b) with h | h | h
  · exact Or.inl (Or.inl h)
  · rcases lt_trichotomy (f a) (f b) with h2 | h2 | h2
    · exact Or.inl (Or.inr ⟨h, Or.inl h2⟩)
    · rcases le_total a.name.data b.name.data with h3 | h3
      · exact Or.inl (Or.inr ⟨h, Or.inr ⟨h2, h3⟩⟩)
      · exact Or.inr (Or.inr ⟨h.symm, Or.inr ⟨h2.symm, h3⟩⟩)
    · exact Or.inr (Or.inr ⟨h.symm, Or.inl h2⟩)
  · exact Or.inr (Or.inl h)

instance {β : Type} [LinearOrder β] (f : DirectoryEntry → β) :
    IsTrans DirectoryEntry (pinLe f) := by
  constructor
  intro a b c h1 h2
  unfold pinLe at h1 h2 ⊢
  rcases h1 with h1 | ⟨h1, h1k⟩ <;> rcases h2 with h2 | ⟨h2, h2k⟩
  · exact Or.inl (lt_trans h1 h2)
  · exact Or.inl (by rw [← h2]; exact h1)
  · exact Or.inl (by rw [h1]; exact h2)
  · refine Or.inr ⟨h1.trans h2, ?_⟩
    rcases h1k with hf | ⟨hf, hn⟩ <;> rcases h2k with hf2 | ⟨hf2, hn2⟩
    · exact Or.inl (lt_trans hf hf2)
    · exact Or.inl (by rw [← hf2]; exact hf)
    · exact Or.inl (by rw [hf]; exact hf2)
    · exact Or.inr ⟨hf.trans hf2, le_trans hn hn2⟩

instance (k : SortKey) (d : Bool) : IsTotal DirectoryEntry (entryRel k d) := by
  cases k <;> cases d <;> (unfold entryRel; infer_instance)

instance (k : SortKey) (d : Bool) : IsTrans DirectoryEntry (entryRel k d) := by
  cases k <;> cases d <;> (unfold entryRel; infer_instance)

/-- Modelled from the spec: sorting an entry list by the panel's current sort
key and direction (spec section 4.1 `setSort`, "re-sorts in place"). -/
def sortEntries (k : SortKey) (d : Bool) (l : List DirectoryEntry) :
    List DirectoryEntry :=
  List.insertionSort (entryRel k d) l

/-- Modelled from the spec: one pane's state (spec section 3, `PanelState`):
current directory path, ordered entry sequence in the current sort order,
cursor index (0 used as the "empty" sentinel when there are no entries), the
set of selected entry paths, active sort key and direction, back-history
stack for parent navigation, and the last surfaced error message. -/
structure PanelState where
  dirPath : String
  entries : List DirectoryEntry
  cursor : Nat
  selected : List String
  sortKey : SortKey
  sortAsc : Bool
  history : List String
  lastError : Option FMError
deriving DecidableEq

/-- Clamp a prospective cursor position into the valid range for an entry
list of length `len`; 0 is the sentinel for an empty list. -/
def clampCursor (len c : Nat) : Nat :=
  if len = 0 then 0 else min c (len - 1)

/-- Modelled from the spec: `refresh(path)` (spec section 4.1).  The OS
directory read is passed in as `r`: on success the new entry sequence is
sorted by the panel's current key/direction, the cursor is re-validated and
selections whose paths are no longer listed are dropped; on failure
(`NotFound`, `PermissionDenied`, `NotADirectory`) the panel retains its
previous valid state and surfaces the error for display. -/
def refresh (p : PanelState) (path : String)
    (r : Except FMError (List DirectoryEntry)) : PanelState :=
  match r with
  | Except.error e => { p with lastError := some e }
  | Except.ok es =>
      let sorted := sortEntries p.sortKey p.sortAsc es
      { p with
        dirPath := path
        entries := sorted
        cursor := clampCursor sorted.length p.cursor
        selected := p.selected.filter
          (fun s => decide (s ∈ sorted.map DirectoryEntry.path))
        lastError := none }

/-- Modelled from the spec: `navigate(entry)` (spec section 4.1): if the
entry is a directory this is `refresh(entry.path)` plus pushing the old path
onto the back-history stack; if a symlink, resolve one level — the entry the
OS resolves the link to is the next element of `resolution` — and recurse;
if a file the call does not apply (the caller routes to the viewer/editor),
modelled as the identity.  A symlink whose target the OS cannot resolve
(`resolution` exhausted) leaves the panel unchanged. -/
def navigate (p : PanelState) (e : DirectoryEntry)
    (resolution : List DirectoryEntry)
    (r : Except FMError (List DirectoryEntry)) : PanelState :=
  if e.kind = EntryKind.directory then
    match r with
    | Except.error err => { p with lastError := some err }
    | Except.ok es =>
        { refresh p e.path (Except.ok es) with history := p.dirPath :: p.history }
  else if e.kind = EntryKind.symlink then
    match resolution with
    | e2 :: rest => navigate p e2 rest r
    | [] => p
  else p

/-- Modelled from the spec: `toggleSelect(entry)` (spec section 4.1), keyed
by the entry's path; only paths present in the current entry list can be
toggled in. -/
def toggleSelect (p : PanelState) (path : String) : PanelState :=
  if path ∈ p.entries.map DirectoryEntry.path then
    if path ∈ p.selected then { p with selected := p.selected.erase path }
    else { p with selected := path :: p.selected }
  else p

/-- Modelled from the spec: `selectAll()` is a toggle (spec section 4.1) —
if all entries are already selected it clears the selection, otherwise it
selects every listed path. -/
def selectAll (p : PanelState) : PanelState :=
  let paths := p.entries.map DirectoryEntry.path
  if paths.all (fun n => decide (n ∈ p.selected)) then { p with selected := [] }
  else { p with selected := paths }

/-- Modelled from the spec: `clearSelection()` (spec section 4.1). -/
def clearSelection (p : PanelState) : PanelState :=
  { p with selected := [] }

/-- Modelled from the spec: `setSort(key)` (spec section 4.1): if `key`
equals the current key the direction flips, otherwise the key is set with
ascending direction; the entry list is then re-sorted in place. -/
def setSort (p : PanelState) (k : SortKey) : PanelState :=
  if k = p.sortKey then
    { p with
      sortAsc := !p.sortAsc
      entries := sortEntries p.sortKey (!p.sortAsc) p.entries }
  else
    { p with
      sortKey := k
      sortAsc := true
      entries := sortEntries k true p.entries }

/-- Modelled from the spec: cursor movement commands of the keyboard surface
(spec section 6: arrow/PgUp/PgDn/Home/End). -/
inductive CursorMove where
  | up
  | down
  | pageUp
  | pageDown
  | home
  | toEnd
deriving DecidableEq

/-- Modelled from the spec: apply one cursor movement, clamped into the
valid range (PgUp/PgDn move 10 lines, per the README navigation table). -/
def moveCursor (p : PanelState) (m : CursorMove) : PanelState :=
  let len := p.entries.length
  let pos :=
    match m with
    | CursorMove.up => p.cursor - 1
    | CursorMove.down => p.cursor + 1
    | CursorMove.pageUp => p.cursor - 10
    | CursorMove.pageDown => p.cursor + 10
    | CursorMove.home => 0
    | CursorMove.toEnd => len - 1
  { p with cursor := clampCursor len pos }

/-- Modelled from the spec: the closed set of UI-thread panel operations
(spec sections 4.1 and 6). -/
inductive PanelOp where
  | refreshOp (path : String) (r : Except FMError (List DirectoryEntry))
  | navigateOp (e : DirectoryEntry) (resolution : List DirectoryEntry)
      (r : Except FMError (List DirectoryEntry))
  | toggleSelectOp (path : String)
  | selectAllOp
  | clearSelectionOp
  | setSortOp (k : SortKey)
  | moveCursorOp (m : CursorMove)

/-- Modelled from the spec: dispatch of one panel operation. -/
def applyOp (op : PanelOp) (p : PanelState) : PanelState :=
  match op with
  | PanelOp.refreshOp path r => refresh p path r
  | PanelOp.navigateOp e resolution r => navigate p e resolution r
  | PanelOp.toggleSelectOp path => toggleSelect p path
  | PanelOp.selectAllOp => selectAll p
  | PanelOp.clearSelectionOp => clearSelection p
  | PanelOp.setSortOp k => setSort p k
  | PanelOp.moveCursorOp m => moveCursor p m

/-- Modelled from the spec: the `PanelState` invariants of spec section 3 —
`0 ≤ cursor < len(entries)` when the entry list is non-empty (else the
sentinel, modelled as cursor 0), and every selected path exists in the
current entry list. -/
def PanelInv (p : PanelState) : Prop :=
  (p.entries ≠ [] → p.cursor < p.entries.length) ∧
  (p.entries = [] → p.cursor = 0) ∧
  (∀ s ∈ p.selected, s ∈ p.entries.map DirectoryEntry.path)

instance (p : PanelState) : Decidable (PanelInv p) := by
  unfold PanelInv; infer_instance

/-- A path relative to a task's root, as a list of name components. -/
abbrev FPath := List String

mutual
/-- Modelled from the spec: one node of a source tree handed to the File
Operation Engine (spec section 4.2): a regular file with a byte size, a
symbolic link with a target, or a directory with children. -/
inductive FSNode where
  | file (name : String) (size : Nat)
  | symlink (name : String) (target : String)
  | dir (name : String) (children : FSForest)
/-- A list of sibling `FSNode`s, in directory snapshot order. -/
inductive FSForest where
  | nil
  | cons (head : FSNode) (tail : FSForest)
end

/-- Modelled from the spec: one filesystem call of a copy task (spec
section 4.2): create a destination directory, copy a regular file, or copy
a symlink as a link. -/
inductive CopyOp where
  | mkdirOp (path : FPath)
  | fileOp (path : FPath) (size : Nat)
  | linkOp (path : FPath) (target : String)
deriving DecidableEq

/-- The destination path a copy call touches. -/
def CopyOp.opPath : CopyOp → FPath
  | CopyOp.mkdirOp p => p
  | CopyOp.fileOp p _ => p
  | CopyOp.linkOp p _ => p

/-- Whether a copy call completes one item (file or link) for progress
accounting; spec section 4.2: progress is updated "after each file". -/
def CopyOp.isItem : CopyOp → Bool
  | CopyOp.mkdirOp _ => false
  | CopyOp.fileOp _ _ => true
  | CopyOp.linkOp _ _ => true

/-- The bytes one copy call contributes to progress. -/
def CopyOp.opBytes : CopyOp → Nat
  | CopyOp.fileOp _ sz => sz
  | _ => 0

mutual
/-- Modelled from the spec: the deterministic pre-flight walk of one node
(spec sections 4.2 and 5): a stable pre-order plan in which a directory's
creation precedes the calls for its contents. -/
def planNode (base : FPath) : FSNode → List CopyOp
  | FSNode.file n sz => [CopyOp.fileOp (base ++ [n]) sz]
  | FSNode.symlink n t => [CopyOp.linkOp (base ++ [n]) t]
  | FSNode.dir n c => CopyOp.mkdirOp (base ++ [n]) :: planForest (base ++ [n]) c
/-- Pre-order plan of a sibling list, in snapshot order. -/
def planForest (base : FPath) : FSForest → List CopyOp
  | FSForest.nil => []
  | FSForest.cons t ts => planNode base t ++ planForest base ts
end

/-- Total number of items (files and links) in a plan, computed by the
pre-flight walk for progress totals (spec section 4.2). -/
def itemCount (plan : List CopyOp) : Nat :=
  (plan.filter CopyOp.isItem).length

/-- Modelled from the spec: terminal status of a `FileTask` (spec section 3:
running, succeeded, failed(reason), cancelled). -/
inductive TaskStatus where
  | running
  | succeeded
  | failed (reason : String)
  | cancelled
deriving DecidableEq

/-- Whether a status is terminal (glossary: succeeded, failed, or
cancelled — no further progress updates occur after this). -/
def TaskStatus.isTerminal : TaskStatus → Bool
  | TaskStatus.running => false
  | _ => true

/-- Modelled from the spec: one update of a task's mutable progress record
(spec section 3): cumulative files/bytes completed, current item name, and
status. -/
structure ProgressSnap where
  filesDone : Nat
  bytesDone : Nat
  currentItem : FPath
  status : TaskStatus
deriving DecidableEq

/-- One entry materialised at the destination by a copy call. -/
inductive DestEntry where
  | dDir (path : FPath)
  | dFile (path : FPath) (size : Nat)
  | dLink (path : FPath) (target : String)
deriving DecidableEq

/-- Whether a destination entry is an item (file or link) rather than a
directory. -/
def DestEntry.isItem : DestEntry → Bool
  | DestEntry.dDir _ => false
  | _ => true

/-- The destination entry a copy call creates. -/
def CopyOp.destOf : CopyOp → DestEntry
  | CopyOp.mkdirOp p => DestEntry.dDir p
  | CopyOp.fileOp p sz => DestEntry.dFile p sz
  | CopyOp.linkOp p t => DestEntry.dLink p t

/-- Modelled from the spec: the observable state of one running copy task:
progress counters, the filesystem calls issued so far in order, the
destination entries created so far, the emitted progress updates, and the
task status. -/
structure CopyRun where
  filesDone : Nat
  bytesDone : Nat
  calls : List CopyOp
  dest : List DestEntry
  trace : List ProgressSnap
  status : TaskStatus
deriving DecidableEq

/-- Modelled from the spec: the cooperative cancellation check performed
between files (spec sections 4.2 and 5); the signal is modelled as the
number of completed items after which it is observed. -/
def cancelHit (cancelAfter : Option Nat) (filesDone : Nat) : Bool :=
  match cancelAfter with
  | none => false
  | some n => n ≤ filesDone

/-- Execute one planned call: issue it, record the destination entry, and
after each completed item update the progress record (spec section 4.2:
updates after each file, with cumulative counts and the current item). -/
def execOp (s : CopyRun) (op : CopyOp) : CopyRun :=
  let s1 := { s with calls := s.calls ++ [op], dest := s.dest ++ [op.destOf] }
  if op.isItem then
    let fd := s.filesDone + 1
    let bd := s.bytesDone + op.opBytes
    { s1 with
      filesDone := fd
      bytesDone := bd
      trace := s.trace ++ [⟨fd, bd, op.opPath, TaskStatus.running⟩] }
  else s1

/-- Transition to a terminal status and emit the final progress update
(spec section 4.2: on cancellation the task transitions to `cancelled` and
the engine stops issuing new filesystem calls). -/
def finishRun (s : CopyRun) (st : TaskStatus) : CopyRun :=
  { s with status := st, trace := s.trace ++ [⟨s.filesDone, s.bytesDone, [], st⟩] }

/-- Modelled from the spec: run the planned calls in order, checking the
cancellation signal before every call; files already completed remain
as-is — no rollback (spec section 4.2). -/
def runOps (cancelAfter : Option Nat) : List CopyOp → CopyRun → CopyRun
  | [], s => finishRun s TaskStatus.succeeded
  | op :: rest, s =>
      if cancelHit cancelAfter s.filesDone then finishRun s TaskStatus.cancelled
      else runOps cancelAfter rest (execOp s op)

/-- The initial state of a freshly submitted copy task. -/
def initRun : CopyRun := ⟨0, 0, [], [], [], TaskStatus.running⟩

/-- Modelled from the spec: a whole copy task over a source forest — the
pre-flight walk followed by execution (spec section 4.2). -/
def runCopyTask (t : FSForest) (cancelAfter : Option Nat) : CopyRun :=
  runOps cancelAfter (planForest [] t) initRun

/-- One recursive-listing item: relative path, kind and size, the data by
which spec section 8 compares source and destination listings. -/
structure ListingItem where
  path : FPath
  kind : EntryKind
  size : Nat
deriving DecidableEq

mutual
/-- Modelled from the spec: the recursive listing of one node — names,
kinds and sizes in pre-order (spec section 8's structural comparison). -/
def listNode (base : FPath) : FSNode → List ListingItem
  | FSNode.file n sz => [⟨base ++ [n], EntryKind.file, sz⟩]
  | FSNode.symlink n _ => [⟨base ++ [n], EntryKind.symlink, 0⟩]
  | FSNode.dir n c =>
      ⟨base ++ [n], EntryKind.directory, 0⟩ :: listForest (base ++ [n]) c
/-- Recursive listing of a sibling list. -/
def listForest (base : FPath) : FSForest → List ListingItem
  | FSForest.nil => []
  | FSForest.cons t ts => listNode base t ++ listForest base ts
end

/-- Read a created destination entry back as a listing item. -/
def DestEntry.item : DestEntry → ListingItem
  | DestEntry.dDir p => ⟨p, EntryKind.directory, 0⟩
  | DestEntry.dFile p sz => ⟨p, EntryKind.file, sz⟩
  | DestEntry.dLink p _ => ⟨p, EntryKind.symlink, 0⟩

/-- `leadsTo p q` means `q` lies strictly below `p` in the tree of paths. -/
def leadsTo (p q : FPath) : Prop :=
  ∃ s, s ≠ [] ∧ q = p ++ s

/-- Modelled from the spec: one filesystem call of a delete task (spec
section 4.2): unlink a regular file, remove a symlink as a link (never
following it), or remove an emptied directory. -/
inductive DelOp where
  | unlink (path : FPath)
  | unlinkLink (path : FPath)
  | rmdir (path : FPath)
deriving DecidableEq

/-- The path a delete call touches. -/
def DelOp.delPath : DelOp → FPath
  | DelOp.unlink p => p
  | DelOp.unlinkLink p => p
  | DelOp.rmdir p => p

mutual
/-- Modelled from the spec: the deterministic post-order delete walk of one
node (spec section 4.2): a directory is removed only after its contents,
and a symlink is removed as a link, never dereferenced into its target. -/
def delNode (base : FPath) : FSNode → List DelOp
  | FSNode.file n _ => [DelOp.unlink (base ++ [n])]
  | FSNode.symlink n _ => [DelOp.unlinkLink (base ++ [n])]
  | FSNode.dir n c => delForest (base ++ [n]) c ++ [DelOp.rmdir (base ++ [n])]
/-- Post-order delete plan of a sibling list, in snapshot order. -/
def delForest (base : FPath) : FSForest → List DelOp
  | FSForest.nil => []
  | FSForest.cons t ts => delNode base t ++ delForest base ts
end

mutual
/-- The symlink paths inside one node's walk. -/
def nodeSymPaths (base : FPath) : FSNode → List FPath
  | FSNode.file _ _ => []
  | FSNode.symlink n _ => [base ++ [n]]
  | FSNode.dir n c => forestSymPaths (base ++ [n]) c
/-- The symlink paths inside a sibling list's walk. -/
def forestSymPaths (base : FPath) : FSForest → List FPath
  | FSForest.nil => []
  | FSForest.cons t ts => nodeSymPaths base t ++ forestSymPaths base ts
end

/-- Modelled from the spec: the effect a succeeded delete task has on the
parent directory as re-read by a subsequent refresh (spec section 8: the
parent no longer lists the deleted root). -/
def afterDelete (es : List DirectoryEntry) (root : String) :
    List DirectoryEntry :=
  es.filter (fun e => decide (e.path ≠ root))

/-- Modelled from the spec: the registry view of one submitted `FileTask`
(spec section 4.2): the top-level source paths plus the destination path it
targets, used for the one-active-task-per-path rule. -/
structure TaskSpec where
  topPaths : List String
deriving DecidableEq

/-- Two task specifications conflict when they share a top-level source or
destination path (spec section 4.2). -/
def specConflict (a b : TaskSpec) : Bool :=
  a.topPaths.any (fun p => b.topPaths.contains p)

/-- Modelled from the spec: the engine's task registry — the specifications
of the currently active tasks (spec section 3: `FileTask` objects are
exclusively owned by the engine's task registry while active). -/
structure EngineState where
  active : List TaskSpec
deriving DecidableEq

/-- Modelled from the spec: task submission (spec section 4.2): submitting
a task that conflicts with a running one fails with `Busy` rather than
interleaving mutations on the same subtree; otherwise the task is started
and enters the registry. -/
def submit (e : EngineState) (t : TaskSpec) : Except FMError EngineState :=
  if e.active.any (fun a => specConflict t a) then Except.error FMError.busy
  else Except.ok ⟨t :: e.active⟩

/-- Modelled from the spec: a task leaving the registry on reaching a
terminal status (spec section 3). -/
def finishTask (e : EngineState) (t : TaskSpec) : EngineState :=
  ⟨e.active.erase t⟩

/-- Modelled from the spec: the engine registry invariant — no two active
tasks share a top-level path (spec section 4.2). -/
def EngineInv (e : EngineState) : Prop :=
  e.active.Pairwise (fun a b => specConflict a b = false)

instance (e : EngineState) : Decidable (EngineInv e) := by
  unfold EngineInv; infer_instance

/-- Modelled from the spec: one OS process snapshot (spec section 3,
`ProcessInfo`): PID, command name, CPU percentage (scaled to an integer),
resident memory, state. -/
structure ProcessInfo where
  pid : Nat
  command : String
  cpu : Nat
  memKB : Nat
  procState : String
deriving DecidableEq

/-- Modelled from the spec: one row of the OS process table as seen by the
signaling call, together with whether the caller has rights over it (spec
section 4.3: `PermissionDenied` if the caller lacks rights). -/
structure OSProc where
  info : ProcessInfo
  signalAllowed : Bool
deriving DecidableEq

/-- Modelled from the spec: graceful or forced termination request (spec
section 4.3: `SIGTERM`-equivalent via `k`, `SIGKILL`-equivalent via the
force-kill key). -/
inductive SigKind where
  | term
  | kill
deriving DecidableEq

/-- Modelled from the spec: `signal(pid, kind)` against the OS table (spec
section 4.3): fails with `NotFound` if the PID no longer exists,
`PermissionDenied` if the caller lacks rights over that process. -/
def signalOS (os : List OSProc) (pid : Nat) (_k : SigKind) :
    Except FMError Unit :=
  match os.find? (fun o => o.info.pid == pid) with
  | none => Except.error FMError.notFound
  | some o =>
      if o.signalAllowed then Except.ok () else Except.error FMError.permissionDenied

/-- Modelled from the spec: process-manager sort keys (spec section 4.3:
PID, CPU, memory, name). -/
inductive PSortKey where
  | byPid
  | byCpu
  | byMem
  | byName
deriving DecidableEq

/-- Modelled from the spec: the Process Manager's UI-side state (spec
section 3): the ordered `ProcessInfo` sequence, replaced wholesale on each
refresh, plus the manager-local sort key. -/
structure PMState where
  procs : List ProcessInfo
  sortKey : PSortKey
deriving DecidableEq

/-- Modelled from the spec: signaling through the manager: the signal is
reported per-attempt and the manager's snapshot is left untouched — only
the next refresh is authoritative (spec section 4.3). -/
def pmSignal (pm : PMState) (os : List OSProc) (pid : Nat) (k : SigKind) :
    PMState × Except FMError Unit :=
  (pm, signalOS os pid k)

/-- Modelled from the spec: `refresh()` re-enumerates the OS process table
into a new sequence, replacing the prior one wholesale (spec section 4.3). -/
def pmRefresh (pm : PMState) (os : List OSProc) : PMState :=
  { pm with procs := os.map OSProc.info }

/-- The actions the file manager's keys are documented to invoke, covering
the README "Functions" table and the website shortcut groups. -/
inductive KeyAction where
  | helpAct
  | fileInfoAct
  | viewFileAct
  | editFileAct
  | copyAct
  | moveAct
  | mkdirAct
  | deleteAct
  | processManagerAct
  | quitAct
  | renameAct
  | selectAct
  | selectAllAct
  | sortNameAct
  | sortSizeAct
  | sortDateAct
  | quickFindAct
  | goToPathAct
  | aiCommandAct
  | openDirAct
  | parentDirAct
  | switchPanelAct
deriving DecidableEq

/-- The "Functions" table of `src/README.md` (the Rust edition's primary
keyboard documentation), transcribed binding by binding:
`1` Help, `2` File info, `3` View file, `4` Edit file, `5` Copy, `6` Move,
`7` Create directory, `8` Delete, `9` Process manager, `0`/`q` Quit,
`r`/`R` Rename. -/
def readmeFunctionKeys : List (String × KeyAction) :=
  [("1", KeyAction.helpAct),
   ("2", KeyAction.fileInfoAct),
   ("3", KeyAction.viewFileAct),
   ("4", KeyAction.editFileAct),
   ("5", KeyAction.copyAct),
   ("6", KeyAction.moveAct),
   ("7", KeyAction.mkdirAct),
   ("8", KeyAction.deleteAct),
   ("9", KeyAction.processManagerAct),
   ("0", KeyAction.quitAct),
   ("q", KeyAction.quitAct),
   ("r", KeyAction.renameAct),
   ("R", KeyAction.renameAct)]

/-- The single-key bindings of the `shortcutGroups` constant in
`src/website/src/components/Shortcuts.tsx` (the marketing site's table):
file operations `c` Copy, `m` Move, `k` Create directory, `x` Delete,
`r` Rename; tools `h` Help, `o` File info, `v` View file, `e` Edit file,
`p` Process manager; selection and AI `Space` Select file, `*` Select all,
`.` AI command, `q` Quit. -/
def websiteShortcutKeys : List (String × KeyAction) :=
  [("c", KeyAction.copyAct),
   ("m", KeyAction.moveAct),
   ("k", KeyAction.mkdirAct),
   ("x", KeyAction.deleteAct),
   ("r", KeyAction.renameAct),
   ("h", KeyAction.helpAct),
   ("o", KeyAction.fileInfoAct),
   ("v", KeyAction.viewFileAct),
   ("e", KeyAction.editFileAct),
   ("p", KeyAction.processManagerAct),
   ("Space", KeyAction.selectAct),
   ("*", KeyAction.selectAllAct),
   (".", KeyAction.aiCommandAct),
   ("q", KeyAction.quitAct)]

/-- Whether a key label is a numeric or function key: a single digit
`0`-`9` (the Norton-Commander function row of the README) or an `F`-key
label; the documented tables use digits only. -/
def isNumericKey (s : String) : Bool :=
  match s.data with
  | [c] => decide (48 ≤ c.toNat ∧ c.toNat ≤ 57)
  | 'F' :: c :: [] => decide (48 ≤ c.toNat ∧ c.toNat ≤ 57)
  | _ => false

/-- The byte and file counters of a progress trace never decrease across
successive updates (spec section 4.2: updates are monotonic — counts never
decrease). -/
def countsMono (l : List ProgressSnap) : Prop :=
  l.Pairwise (fun a b => a.filesDone ≤ b.filesDone ∧ a.bytesDone ≤ b.bytesDone)

/-- A snapshot with a terminal status only ever appears as the last update
of a trace (glossary: no further progress updates occur after a terminal
status). -/
def terminalLast (l : List ProgressSnap) : Prop :=
  ∀ l₁ x l₂, l = l₁ ++ x :: l₂ → x.status.isTerminal = true → l₂ = []

/-- A two-file demonstration source tree: `a.txt` (10 bytes) and
subdirectory `d` holding `b.txt` (5 bytes), the example scenario of spec
section 8. -/
def demoTree : FSForest :=
  FSForest.cons (FSNode.file "a.txt" 10)
    (FSForest.cons
      (FSNode.dir "d" (FSForest.cons (FSNode.file "b.txt" 5) FSForest.nil))
      FSForest.nil)

/-- A demonstration tree holding a symlink next to a directory, for the
delete-task witnesses. -/
def demoLinkTree : FSForest :=
  FSForest.cons
    (FSNode.dir "d" (FSForest.cons (FSNode.file "b.txt" 5) FSForest.nil))
    (FSForest.cons (FSNode.symlink "l" "/etc/passwd") FSForest.nil)

/-- A demonstration panel with two plainly named file entries, sorted by
name ascending. -/
def demoPanel : PanelState :=
  { dirPath := "/tmp/src"
    entries :=
      [⟨"/tmp/src/a.txt", "a.txt", EntryKind.file, 10, 100, 420⟩,
       ⟨"/tmp/src/b.txt", "b.txt", EntryKind.file, 5, 200, 420⟩]
    cursor := 0
    selected := ["/tmp/src/a.txt"]
    sortKey := SortKey.name
    sortAsc := true
    history := []
    lastError := none }

/-- A demonstration engine registry holding one active copy task rooted at
`/tmp/src` with destination `/tmp/dst`. -/
def demoEngine : EngineState :=
  ⟨[⟨["/tmp/src", "/tmp/dst"]⟩]⟩

/-- A task specification conflicting with `demoEngine`'s active task on the
destination path. -/
def demoConflicting : TaskSpec :=
  ⟨["/tmp/other", "/tmp/dst"]⟩

/-- A demonstration OS process table with a single signalable process. -/
def demoOS : List OSProc :=
  [⟨⟨1234, "cokacdir", 2, 5120, "S"⟩, true⟩]

/-- A demonstration process-manager snapshot taken from `demoOS`. -/
def demoPM : PMState :=
  ⟨[⟨1234, "cokacdir", 2, 5120, "S"⟩], PSortKey.byCpu⟩

/-- The display name at the root of one node. -/
def nodeName : FSNode → String
  | FSNode.file n _ => n
  | FSNode.symlink n _ => n
  | FSNode.dir n _ => n

/-- The display names of a forest's root nodes, in snapshot order. -/
def rootNames : FSForest → List String
  | FSForest.nil => []
  | FSForest.cons t ts => nodeName t :: rootNames ts

mutual
/-- Well-formedness of one node as a directory snapshot: sibling names are
pairwise distinct at every level, as the OS guarantees for real
directories. -/
def wfNode : FSNode → Bool
  | FSNode.file _ _ => true
  | FSNode.symlink _ _ => true
  | FSNode.dir _ c => wfForest c
/-- Well-formedness of a sibling list: distinct root names, recursively. -/
def wfForest : FSForest → Bool
  | FSForest.nil => true
  | FSForest.cons t ts =>
      wfNode t && !((rootNames ts).contains (nodeName t)) && wfForest ts
end

/-- Under the registry invariant, a shared top-level path is counted at most
once among the active tasks. -/
theorem countP_shared_le_one (p : String) :
    ∀ l : List TaskSpec, l.Pairwise (fun a b => specConflict a b = false) →
      l.countP (fun a => decide (p ∈ a.topPaths)) ≤ 1 := by
  intro l hl
  induction l with
  | nil => simp
  | cons a l ih =>
      rw [List.pairwise_cons] at hl
      rw [List.countP_cons]
      by_cases hp : p ∈ a.topPaths
      · have hz : l.countP (fun a => decide (p ∈ a.topPaths)) = 0 := by
          rw [List.countP_eq_zero]
          intro b hb
          have hc := hl.1 b hb
          unfold specConflict at hc
          rw [List.any_eq_false] at hc
          have := hc p (by simpa using hp)
          simpa using this
        rw [hz]
        simp [hp]
      · have hd : (decide (p ∈ a.topPaths)) = false := by simpa using hp
        simp only [hd, if_neg Bool.false_ne_true, Nat.add_zero]
        exact ih hl.2

/-- C3: at most one active `FileTask` targets any given top-level source or
destination path; submitting a task whose top-level paths conflict with a
running task fails with `Busy` and does not start the new task, while a
non-conflicting submission starts the task and preserves the
one-task-per-path invariant. -/
theorem engine_busy_spec (e : EngineState) (t : TaskSpec) (h : EngineInv e) :
    (∀ p : String, e.active.countP (fun a => decide (p ∈ a.topPaths)) ≤ 1) ∧
    ((∃ a ∈ e.active, specConflict t a = true) →
      submit e t = Except.error FMError.busy) ∧
    (∀ e2, submit e t = Except.ok e2 →
      e2.active = t :: e.active ∧ EngineInv e2) := by
  refine ⟨fun p => countP_shared_le_one p e.active h, ?_, ?_⟩
  · rintro ⟨a, ha, hc⟩
    unfold submit
    rw [if_pos]
    rw [List.any_eq_true]
    exact ⟨a, ha, hc⟩
  · intro e2 he2
    unfold submit at he2
    by_cases hb : e.active.any (fun a => specConflict t a) = true
    · rw [if_pos hb] at he2; cases he2
    · rw [if_neg hb] at he2
      cases he2
      refine ⟨rfl, ?_⟩
      unfold EngineInv
      rw [List.pairwise_cons]
      simp only [Bool.not_eq_true] at hb
      rw [List.any_eq_false] at hb
      exact ⟨fun b hbmem => by simpa using hb b hbmem, h⟩

/-- Closed witness for `engine_busy_spec`: the demonstration registry
satisfies the invariant and rejects the conflicting submission with
`Busy`. -/
theorem engine_busy_spec_witness :
    EngineInv demoEngine ∧
    submit demoEngine demoConflicting = Except.error FMError.busy :=
  ⟨by decide,
   (engine_busy_spec demoEngine demoConflicting (by decide)).2.1
     ⟨⟨["/tmp/src", "/tmp/dst"]⟩, by decide, by decide⟩⟩

/-- C5: when a panel refresh fails (`NotFound`, `PermissionDenied`,
`NotADirectory`), the panel's entries, cursor, selection and sort state are
all unchanged from the previous valid state, and the error is surfaced for
display. -/
theorem refresh_failure_spec (p : PanelState) (path : String) (e : FMError)
    (r : Except FMError (List DirectoryEntry)) (h : r = Except.error e) :
    (refresh p path r).entries = p.entries ∧
    (refresh p path r).cursor = p.cursor ∧
    (refresh p path r).selected = p.selected ∧
    (refresh p path r).sortKey = p.sortKey ∧
    (refresh p path r).sortAsc = p.sortAsc ∧
    (refresh p path r).dirPath = p.dirPath ∧
    (refresh p path r).lastError = some e := by
  subst h
  exact ⟨rfl, rfl, rfl, rfl, rfl, rfl, rfl⟩

/-- Closed witness for `refresh_failure_spec`: a failed refresh of the
demonstration panel keeps its entries and surfaces `NotFound`. -/
theorem refresh_failure_spec_witness :
    (refresh demoPanel "/tmp/gone" (Except.error FMError.notFound)).entries
        = demoPanel.entries ∧
    (refresh demoPanel "/tmp/gone" (Except.error FMError.notFound)).lastError
        = some FMError.notFound := by
  have h := refresh_failure_spec demoPanel "/tmp/gone" FMError.notFound
    (Except.error FMError.notFound) rfl
  exact ⟨h.1, h.2.2.2.2.2.2⟩

/-- C9: signaling a PID that no longer exists in the OS table fails with
`NotFound`; no signal call (successful or failed) changes the manager's
`ProcessInfo` sequence, and the next refresh replaces it wholesale from the
OS table. -/
theorem signal_notfound_spec (pm : PMState) (os : List OSProc) (pid : Nat)
    (k : SigKind) (h : ∀ o ∈ os, o.info.pid ≠ pid) :
    (pmSignal pm os pid k).2 = Except.error FMError.notFound ∧
    (∀ pid2 k2, (pmSignal pm os pid2 k2).1 = pm) ∧
    (pmRefresh pm os).procs = os.map OSProc.info := by
  refine ⟨?_, fun _ _ => rfl, rfl⟩
  show signalOS os pid k = Except.error FMError.notFound
  unfold signalOS
  rw [List.find?_eq_none.mpr]
  intro o ho
  simpa using h o ho

/-- Closed witness for `signal_notfound_spec`: signaling nonexistent PID
999999 against the demonstration table returns `NotFound` and leaves the
snapshot untouched. -/
theorem signal_notfound_spec_witness :
    (pmSignal demoPM demoOS 999999 SigKind.term).2
        = Except.error FMError.notFound ∧
    (pmSignal demoPM demoOS 999999 SigKind.term).1 = demoPM :=
  ⟨(signal_notfound_spec demoPM demoOS 999999 SigKind.term (by decide)).1,
   (signal_notfound_spec demoPM demoOS 999999 SigKind.term (by decide)).2.1
     999999 SigKind.term⟩

/-- C10 counterexample: neither the README "Functions" table nor the
website shortcut table binds any numeric or function key to Rename — in the
README rename is bound to the letter keys `r`/`R` — so the claim that the
numeric/function keys cover rename is false as stated. -/
theorem numeric_rename_counterexample :
    (readmeFunctionKeys.any
        (fun b => isNumericKey b.1 && decide (b.2 = KeyAction.renameAct)))
      = false ∧
    (websiteShortcutKeys.any
        (fun b => isNumericKey b.1 && decide (b.2 = KeyAction.renameAct)))
      = false := by
  decide

/-- C10 amended: in the README's function-key table the numeric keys `5`-`9`
invoke copy, move, mkdir, delete and the process manager, both `q` and `0`
quit, and rename is bound to the letter keys `r`/`R` rather than a
numeric/function key; the website table instead uses letter keys throughout
(`c`/`m`/`k`/`x`/`r`/`p`) and binds `q` but not `0` to quit. -/
theorem keyboard_bindings_amended :
    (readmeFunctionKeys.contains ("5", KeyAction.copyAct) &&
     readmeFunctionKeys.contains ("6", KeyAction.moveAct) &&
     readmeFunctionKeys.contains ("7", KeyAction.mkdirAct) &&
     readmeFunctionKeys.contains ("8", KeyAction.deleteAct) &&
     readmeFunctionKeys.contains ("9", KeyAction.processManagerAct) &&
     isNumericKey "5" && isNumericKey "6" && isNumericKey "7" &&
     isNumericKey "8" && isNumericKey "9" && isNumericKey "0" &&
     readmeFunctionKeys.contains ("0", KeyAction.quitAct) &&
     readmeFunctionKeys.contains ("q", KeyAction.quitAct) &&
     ((readmeFunctionKeys.filter
        (fun b => decide (b.2 = KeyAction.renameAct))).map Prod.fst
          == ["r", "R"]) &&
     !(isNumericKey "r" || isNumericKey "R") &&
     websiteShortcutKeys.contains ("c", KeyAction.copyAct) &&
     websiteShortcutKeys.contains ("m", KeyAction.moveAct) &&
     websiteShortcutKeys.contains ("k", KeyAction.mkdirAct) &&
     websiteShortcutKeys.contains ("x", KeyAction.deleteAct) &&
     websiteShortcutKeys.contains ("r", KeyAction.renameAct) &&
     websiteShortcutKeys.contains ("p", KeyAction.processManagerAct) &&
     websiteShortcutKeys.contains ("q", KeyAction.quitAct) &&
     !(websiteShortcutKeys.any (fun b => isNumericKey b.1)) &&
     !(websiteShortcutKeys.any (fun b => decide (b.1 = "0")))) = true := by
  decide

/-- A trace consisting of running updates followed by one final terminal
update admits terminal snapshots only in last position. -/
theorem terminalLast_of_shape (ts : List ProgressSnap) (lastSnap : ProgressSnap)
    (h : ∀ x ∈ ts, x.status.isTerminal = false) :
    terminalLast (ts ++ [lastSnap]) := by
  induction ts with
  | nil =>
      intro l₁ x l₂ heq _
      cases l₁ with
      | nil =>
          simp only [List.nil_append] at heq
          cases heq
          rfl
      | cons a l₁ =>
          simp only [List.nil_append, List.cons_append] at heq
          injection heq with h1 h2
          exact absurd h2.symm (by simp)
  | cons t ts ih =>
      intro l₁ x l₂ heq hterm
      cases l₁ with
      | nil =>
          simp only [List.cons_append, List.nil_append, List.cons.injEq] at heq
          rw [← heq.1] at hterm
          exact absurd hterm (by simp [h t (by simp)])
      | cons a l₁ =>
          simp only [List.cons_append, List.cons.injEq] at heq
          exact ih (fun x hx => h x (by simp [hx])) l₁ x l₂ heq.2 hterm

/-- Core invariant of a copy task's execution: the emitted trace is a block
of running updates with monotone counters, closed by exactly one terminal
update. -/
theorem runOps_shape (ca : Option Nat) :
    ∀ (plan : List CopyOp) (s : CopyRun),
      (∀ x ∈ s.trace, x.status = TaskStatus.running ∧
        x.filesDone ≤ s.filesDone ∧ x.bytesDone ≤ s.bytesDone) →
      countsMono s.trace →
      ∃ ts lastSnap,
        (runOps ca plan s).trace = ts ++ [lastSnap] ∧
        (∀ x ∈ ts, x.status = TaskStatus.running) ∧
        lastSnap.status.isTerminal = true ∧
        countsMono (ts ++ [lastSnap]) := by
  intro plan
  induction plan with
  | nil =>
      intro s h hm
      refine ⟨s.trace, ⟨s.filesDone, s.bytesDone, [], TaskStatus.succeeded⟩,
        rfl, fun x hx => (h x hx).1, rfl, ?_⟩
      unfold countsMono
      rw [List.pairwise_append]
      refine ⟨hm, List.pairwise_singleton _ _, ?_⟩
      intro a ha b hb
      rw [List.mem_singleton] at hb
      subst hb
      exact ⟨(h a ha).2.1, (h a ha).2.2⟩
  | cons op rest ih =>
      intro s h hm
      show ∃ ts lastSnap,
        (if cancelHit ca s.filesDone then finishRun s TaskStatus.cancelled
          else runOps ca rest (execOp s op)).trace = ts ++ [lastSnap] ∧ _
      by_cases hc : cancelHit ca s.filesDone = true
      · rw [if_pos hc]
        refine ⟨s.trace, ⟨s.filesDone, s.bytesDone, [], TaskStatus.cancelled⟩,
          rfl, fun x hx => (h x hx).1, rfl, ?_⟩
        unfold countsMono
        rw [List.pairwise_append]
        refine ⟨hm, List.pairwise_singleton _ _, ?_⟩
        intro a ha b hb
        rw [List.mem_singleton] at hb
        subst hb
        exact ⟨(h a ha).2.1, (h a ha).2.2⟩
      · rw [if_neg hc]
        apply ih (execOp s op)
        · intro x hx
          unfold execOp at hx ⊢
          by_cases hit : op.isItem = true
          · simp only [hit, if_pos] at hx ⊢
            rw [List.mem_append] at hx
            rcases hx with hx | hx
            · refine ⟨(h x hx).1, ?_, ?_⟩
              · show x.filesDone ≤ s.filesDone + 1
                have := (h x hx).2.1
                omega
              · show x.bytesDone ≤ s.bytesDone + op.opBytes
                have := (h x hx).2.2
                omega
            · rw [List.mem_singleton] at hx
              subst hx
              exact ⟨rfl, le_refl _, le_refl _⟩
          · simp only [Bool.not_eq_true] at hit
            simp only [hit, Bool.false_eq_true, if_neg, if_false] at hx ⊢
            exact h x hx
        · unfold execOp
          by_cases hit : op.isItem = true
          · simp only [hit, if_pos]
            unfold countsMono
            rw [List.pairwise_append]
            refine ⟨hm, List.pairwise_singleton _ _, ?_⟩
            intro a ha b hb
            rw [List.mem_singleton] at hb
            subst hb
            refine ⟨?_, ?_⟩
            · show a.filesDone ≤ s.filesDone + 1
              have := (h a ha).2.1
              omega
            · show a.bytesDone ≤ s.bytesDone + op.opBytes
              have := (h a ha).2.2
              omega
          · simp only [Bool.not_eq_true] at hit
            simp only [hit, Bool.false_eq_true, if_neg, if_false]
            exact hm

/-- C4: along any copy task's progress trace the file and byte counters
never decrease between successive updates, and once a terminal status
(succeeded, failed, cancelled) is reported no further progress update
occurs. -/
theorem progress_monotone_spec (plan : List CopyOp) (ca : Option Nat) :
    countsMono (runOps ca plan initRun).trace ∧
    terminalLast (runOps ca plan initRun).trace := by
  obtain ⟨ts, lastSnap, heq, hrun, hterm, hmono⟩ :=
    runOps_shape ca plan initRun (by intro x hx; cases hx) List.Pairwise.nil
  rw [heq]
  refine ⟨hmono, terminalLast_of_shape ts lastSnap ?_⟩
  intro x hx
  rw [hrun x hx]
  rfl

/-- The calls field after one executed op: the op is appended. -/
theorem execOp_calls (s : CopyRun) (op : CopyOp) :
    (execOp s op).calls = s.calls ++ [op] := by
  unfold execOp
  by_cases hit : op.isItem = true
  · rw [if_pos hit]
  · rw [if_neg hit]

/-- The destination after one executed op: its entry is appended. -/
theorem execOp_dest (s : CopyRun) (op : CopyOp) :
    (execOp s op).dest = s.dest ++ [op.destOf] := by
  unfold execOp
  by_cases hit : op.isItem = true
  · rw [if_pos hit]
  · rw [if_neg hit]

/-- The item counter after one executed op. -/
theorem execOp_filesDone (s : CopyRun) (op : CopyOp) :
    (execOp s op).filesDone = if op.isItem then s.filesDone + 1 else s.filesDone := by
  unfold execOp
  by_cases hit : op.isItem = true
  · rw [if_pos hit, if_pos hit]
  · rw [if_neg hit, if_neg hit]

/-- Core cancellation lemma: when the signal is observed after `n` completed
items and the plan still holds further items, execution stops at the check
following the `n`-th item — the calls issued are exactly a plan prefix, the
destination gains exactly the first `n - s.filesDone` remaining items, and
the task ends `cancelled` with counter `n`. -/
theorem runOps_cancel (n : Nat) :
    ∀ (plan : List CopyOp) (s : CopyRun),
      s.filesDone ≤ n →
      n - s.filesDone < itemCount plan →
      ∃ done rest,
        plan = done ++ rest ∧
        (runOps (some n) plan s).status = TaskStatus.cancelled ∧
        (runOps (some n) plan s).filesDone = n ∧
        (runOps (some n) plan s).calls = s.calls ++ done ∧
        (runOps (some n) plan s).dest = s.dest ++ done.map CopyOp.destOf ∧
        done.filter CopyOp.isItem =
          (plan.filter CopyOp.isItem).take (n - s.filesDone) := by
  intro plan
  induction plan with
  | nil =>
      intro s _ hcount
      exact absurd hcount (by simp [itemCount])
  | cons op rest ih =>
      intro s hle hcount
      simp only [runOps]
      by_cases hc : cancelHit (some n) s.filesDone = true
      · have hfd : s.filesDone = n := by
          unfold cancelHit at hc
          simp only [decide_eq_true_eq] at hc
          omega
        rw [if_pos hc]
        exact ⟨[], op :: rest, by simp, rfl, hfd, by simp [finishRun],
          by simp [finishRun], by simp [hfd]⟩
      · rw [if_neg hc]
        have hlt : s.filesDone < n := by
          unfold cancelHit at hc
          simp only [decide_eq_true_eq] at hc
          omega
        by_cases hit : op.isItem = true
        · have hs1 : (execOp s op).filesDone = s.filesDone + 1 := by
            rw [execOp_filesDone, if_pos hit]
          have hle2 : (execOp s op).filesDone ≤ n := by
            rw [hs1]; omega
          have hcount2 : n - (execOp s op).filesDone < itemCount rest := by
            rw [hs1]
            unfold itemCount at hcount ⊢
            rw [List.filter_cons_of_pos hit] at hcount
            simp only [List.length_cons] at hcount
            omega
          obtain ⟨done, r2, hsplit, hst, hfd, hcalls, hdest, hfil⟩ :=
            ih (execOp s op) hle2 hcount2
          refine ⟨op :: done, r2, by rw [hsplit, List.cons_append], hst, hfd, ?_, ?_, ?_⟩
          · rw [hcalls, execOp_calls]
            simp
          · rw [hdest, execOp_dest]
            simp
          · have hk : n - s.filesDone = (n - (s.filesDone + 1)) + 1 := by omega
            rw [List.filter_cons_of_pos hit, List.filter_cons_of_pos hit, hk,
              List.take_succ_cons, List.cons.injEq]
            refine ⟨rfl, ?_⟩
            rw [hfil, hs1]
        · have hs1 : (execOp s op).filesDone = s.filesDone := by
            rw [execOp_filesDone, if_neg hit]
          have hle2 : (execOp s op).filesDone ≤ n := by
            rw [hs1]; omega
          have hcount2 : n - (execOp s op).filesDone < itemCount rest := by
            rw [hs1]
            unfold itemCount at hcount ⊢
            rw [List.filter_cons_of_neg hit] at hcount
            exact hcount
          obtain ⟨done, r2, hsplit, hst, hfd, hcalls, hdest, hfil⟩ :=
            ih (execOp s op) hle2 hcount2
          refine ⟨op :: done, r2, by rw [hsplit, List.cons_append], hst, hfd, ?_, ?_, ?_⟩
          · rw [hcalls, execOp_calls]
            simp
          · rw [hdest, execOp_dest]
            simp
          · rw [List.filter_cons_of_neg hit, List.filter_cons_of_neg hit,
              hfil, hs1]

/-- A copy call's destination entry is an item precisely when the call is. -/
theorem destOf_isItem (op : CopyOp) :
    op.destOf.isItem = op.isItem := by
  cases op <;> rfl

/-- C1: delivering the cancellation signal after exactly `n` of the planned
items have completed (with more remaining) drives the copy task to terminal
status `cancelled`; every filesystem call issued is a prefix of the
deterministic plan (nothing is issued past the stop point), the destination
holds exactly the first `n` planned items — no more — and none of the `n`
completed items is rolled back. -/
theorem copy_cancel_spec (t : FSForest) (n : Nat)
    (h : n < itemCount (planForest [] t)) :
    (runCopyTask t (some n)).status = TaskStatus.cancelled ∧
    ((runCopyTask t (some n)).dest.filter DestEntry.isItem).length = n ∧
    (runCopyTask t (some n)).dest.filter DestEntry.isItem =
      (((planForest [] t).filter CopyOp.isItem).take n).map CopyOp.destOf ∧
    (∃ rest, planForest [] t = (runCopyTask t (some n)).calls ++ rest) := by
  obtain ⟨done, rest, hsplit, hst, _, hcalls, hdest, hfil⟩ :=
    runOps_cancel n (planForest [] t) initRun (Nat.zero_le n)
      (by simpa [initRun] using h)
  have hdest2 : (runCopyTask t (some n)).dest.filter DestEntry.isItem =
      (((planForest [] t).filter CopyOp.isItem).take n).map CopyOp.destOf := by
    show (runOps (some n) (planForest [] t) initRun).dest.filter
        DestEntry.isItem = _
    rw [hdest]
    show (done.map CopyOp.destOf).filter DestEntry.isItem = _
    rw [List.filter_map]
    have hcomp : (DestEntry.isItem ∘ CopyOp.destOf) = CopyOp.isItem := by
      funext op
      exact destOf_isItem op
    rw [hcomp, hfil]
    simp [initRun]
  refine ⟨hst, ?_, hdest2, ⟨rest, ?_⟩⟩
  · rw [hdest2, List.length_map, List.length_take]
    have : n ≤ ((planForest [] t).filter CopyOp.isItem).length := le_of_lt h
    omega
  · show planForest [] t = (runOps (some n) (planForest [] t) initRun).calls ++ rest
    rw [hcalls]
    show planForest [] t = [] ++ done ++ rest
    rw [List.nil_append]
    exact hsplit

/-- Closed witness for `copy_cancel_spec`: cancelling the demonstration
two-file copy after 1 completed file ends `cancelled` with exactly one
destination file. -/
theorem copy_cancel_spec_witness :
    (runCopyTask demoTree (some 1)).status = TaskStatus.cancelled ∧
    ((runCopyTask demoTree (some 1)).dest.filter DestEntry.isItem).length = 1 :=
  ⟨(copy_cancel_spec demoTree 1 (by decide)).1,
   (copy_cancel_spec demoTree 1 (by decide)).2.1⟩

/-- An uncancelled run succeeds and issues exactly the planned calls, in
plan order, materialising every planned destination entry. -/
theorem runOps_none :
    ∀ (plan : List CopyOp) (s : CopyRun),
      (runOps none plan s).status = TaskStatus.succeeded ∧
      (runOps none plan s).calls = s.calls ++ plan ∧
      (runOps none plan s).dest = s.dest ++ plan.map CopyOp.destOf := by
  intro plan
  induction plan with
  | nil =>
      intro s
      exact ⟨rfl, by simp [runOps, finishRun], by simp [runOps, finishRun]⟩
  | cons op rest ih =>
      intro s
      simp only [runOps]
      rw [if_neg (by simp [cancelHit])]
      refine ⟨(ih _).1, ?_, ?_⟩
      · rw [(ih _).2.1, execOp_calls]
        simp
      · rw [(ih _).2.2, execOp_dest]
        simp

mutual
/-- Reading back the destination entries a node's plan creates yields the
node's recursive listing — names, kinds and sizes coincide. -/
theorem planNode_items (base : FPath) (t : FSNode) :
    (planNode base t).map (fun op => op.destOf.item) = listNode base t := by
  cases t with
  | file n sz => rfl
  | symlink n tg => rfl
  | dir n c =>
      simp only [planNode, listNode, List.map_cons]
      rw [planForest_items]
      rfl
/-- Forest version of `planNode_items`. -/
theorem planForest_items (base : FPath) (f : FSForest) :
    (planForest base f).map (fun op => op.destOf.item) = listForest base f := by
  cases f with
  | nil => rfl
  | cons t ts =>
      simp only [planForest, listForest, List.map_append]
      rw [planNode_items, planForest_items]
end

/-- A strictly-below path is strictly longer. -/
theorem leadsTo_length {a b : FPath} (h : leadsTo a b) :
    a.length < b.length := by
  obtain ⟨s, hs, rfl⟩ := h
  simp only [List.length_append]
  cases s with
  | nil => exact absurd rfl hs
  | cons x xs => simp

/-- `leadsTo` composes through an intermediate path. -/
theorem leadsTo_trans {a b c : FPath} (h1 : leadsTo a b) (h2 : leadsTo b c) :
    leadsTo a c := by
  obtain ⟨s, hs, rfl⟩ := h1
  obtain ⟨u, hu, rfl⟩ := h2
  exact ⟨s ++ u, by simp [hs], by simp⟩

/-- Extending a path by one component leads strictly below it. -/
theorem leadsTo_snoc (base : FPath) (n : String) :
    leadsTo base (base ++ [n]) :=
  ⟨[n], by simp, rfl⟩

/-- A one-component list cannot be split into two non-empty parts. -/
theorem singleton_not_split {n : String} {u v : List String}
    (hu : u ≠ []) (hv : v ≠ []) (h : [n] = u ++ v) : False := by
  have := congrArg List.length h
  simp only [List.length_singleton, List.length_append] at this
  cases u with
  | nil => exact absurd rfl hu
  | cons x xs =>
      cases v with
      | nil => exact absurd rfl hv
      | cons y ys =>
          simp only [List.length_cons] at this
          omega

mutual
/-- Every call in a node's copy plan targets a path strictly below the
base. -/
theorem planNode_extends (base : FPath) (t : FSNode) :
    ∀ op ∈ planNode base t, leadsTo base op.opPath := by
  cases t with
  | file n sz =>
      intro op hop
      simp only [planNode, List.mem_singleton] at hop
      subst hop
      exact leadsTo_snoc base n
  | symlink n tg =>
      intro op hop
      simp only [planNode, List.mem_singleton] at hop
      subst hop
      exact leadsTo_snoc base n
  | dir n c =>
      intro op hop
      simp only [planNode, List.mem_cons] at hop
      rcases hop with rfl | hop
      · exact leadsTo_snoc base n
      · exact leadsTo_trans (leadsTo_snoc base n)
          (planForest_extends (base ++ [n]) c op hop)
/-- Forest version of `planNode_extends`. -/
theorem planForest_extends (base : FPath) (f : FSForest) :
    ∀ op ∈ planForest base f, leadsTo base op.opPath := by
  cases f with
  | nil =>
      intro op hop
      simp only [planForest, List.not_mem_nil] at hop
  | cons t ts =>
      intro op hop
      simp only [planForest, List.mem_append] at hop
      rcases hop with hop | hop
      · exact planNode_extends base t op hop
      · exact planForest_extends base ts op hop
end

mutual
/-- Ancestor closure of a node's copy plan: any strict ancestor `p` of a
planned path that itself lies strictly below the base is a directory the
plan creates. -/
theorem planNode_anc (base : FPath) (t : FSNode) :
    ∀ op ∈ planNode base t, ∀ p, leadsTo base p → leadsTo p op.opPath →
      CopyOp.mkdirOp p ∈ planNode base t := by
  cases t with
  | file n sz =>
      intro op hop p hbp hpq
      simp only [planNode, List.mem_singleton] at hop
      subst hop
      obtain ⟨u, hu, rfl⟩ := hbp
      obtain ⟨v, hv, hq⟩ := hpq
      simp only [CopyOp.opPath, List.append_assoc] at hq
      exact (singleton_not_split hu hv (List.append_cancel_left hq)).elim
  | symlink n tg =>
      intro op hop p hbp hpq
      simp only [planNode, List.mem_singleton] at hop
      subst hop
      obtain ⟨u, hu, rfl⟩ := hbp
      obtain ⟨v, hv, hq⟩ := hpq
      simp only [CopyOp.opPath, List.append_assoc] at hq
      exact (singleton_not_split hu hv (List.append_cancel_left hq)).elim
  | dir n c =>
      intro op hop p hbp hpq
      simp only [planNode, List.mem_cons] at hop ⊢
      rcases hop with rfl | hop
      · obtain ⟨u, hu, rfl⟩ := hbp
        obtain ⟨v, hv, hq⟩ := hpq
        simp only [CopyOp.opPath, List.append_assoc] at hq
        exact (singleton_not_split hu hv (List.append_cancel_left hq)).elim
      · obtain ⟨u, hu, hp⟩ := hbp
        obtain ⟨w, hw, hq⟩ := planForest_extends (base ++ [n]) c op hop
        obtain ⟨v, hv, hq2⟩ := hpq
        have hkey : u ++ v = [n] ++ w := by
          have hbig : base ++ (u ++ v) = base ++ ([n] ++ w) := by
            rw [← List.append_assoc, ← hp, ← hq2, hq, List.append_assoc]
          exact List.append_cancel_left hbig
        cases u with
        | nil => exact absurd rfl hu
        | cons x xs =>
            simp only [List.cons_append, List.singleton_append,
              List.cons.injEq] at hkey
            obtain ⟨hxn, hkey2⟩ := hkey
            rw [hxn] at hp
            cases xs with
            | nil =>
                left
                rw [hp]
            | cons y ys =>
                right
                refine planForest_anc (base ++ [n]) c op hop p ?_ ⟨v, hv, hq2⟩
                refine ⟨y :: ys, by simp, ?_⟩
                rw [hp]
                simp
/-- Forest version of `planNode_anc`. -/
theorem planForest_anc (base : FPath) (f : FSForest) :
    ∀ op ∈ planForest base f, ∀ p, leadsTo base p → leadsTo p op.opPath →
      CopyOp.mkdirOp p ∈ planForest base f := by
  cases f with
  | nil =>
      intro op hop
      simp only [planForest, List.not_mem_nil] at hop
  | cons t ts =>
      intro op hop p hbp hpq
      simp only [planForest, List.mem_append] at hop ⊢
      rcases hop with hop | hop
      · exact Or.inl (planNode_anc base t op hop p hbp hpq)
      · exact Or.inr (planForest_anc base ts op hop p hbp hpq)
end

mutual
/-- Pre-order split: a created directory's `mkdir` call precedes every call
that touches a path strictly below it, within a node's plan. -/
theorem planNode_split (base : FPath) (t : FSNode) :
    ∀ p, CopyOp.mkdirOp p ∈ planNode base t →
      ∃ l₁ l₂, planNode base t = l₁ ++ CopyOp.mkdirOp p :: l₂ ∧
        ∀ op ∈ l₁, ¬ leadsTo p op.opPath := by
  cases t with
  | file n sz =>
      intro p hp
      simp only [planNode, List.mem_singleton] at hp
      cases hp
  | symlink n tg =>
      intro p hp
      simp only [planNode, List.mem_singleton] at hp
      cases hp
  | dir n c =>
      intro p hp
      simp only [planNode, List.mem_cons, CopyOp.mkdirOp.injEq] at hp
      rcases hp with hp | hp
      · subst hp
        refine ⟨[], planForest (base ++ [n]) c, by simp [planNode], ?_⟩
        intro op hop
        simp only [List.not_mem_nil] at hop
      · obtain ⟨l₁, l₂, hsplit, hl₁⟩ := planForest_split (base ++ [n]) c p hp
        refine ⟨CopyOp.mkdirOp (base ++ [n]) :: l₁, l₂,
          by simp [planNode, hsplit], ?_⟩
        intro op hop
        rw [List.mem_cons] at hop
        rcases hop with rfl | hop
        · intro habs
          have h1 := leadsTo_length habs
          have h2 := leadsTo_length
            (planForest_extends (base ++ [n]) c (CopyOp.mkdirOp p)
              (by
                rw [hsplit]
                exact List.mem_append_right _ (List.mem_cons_self _ _)))
          simp only [CopyOp.opPath] at h1 h2
          omega
        · exact hl₁ op hop
/-- Forest version of `planNode_split`. -/
theorem planForest_split (base : FPath) (f : FSForest) :
    ∀ p, CopyOp.mkdirOp p ∈ planForest base f →
      ∃ l₁ l₂, planForest base f = l₁ ++ CopyOp.mkdirOp p :: l₂ ∧
        ∀ op ∈ l₁, ¬ leadsTo p op.opPath := by
  cases f with
  | nil =>
      intro p hp
      simp only [planForest, List.not_mem_nil] at hp
  | cons t ts =>
      intro p hp
      by_cases hin : CopyOp.mkdirOp p ∈ planNode base t
      · obtain ⟨l₁, l₂, hsplit, hl₁⟩ := planNode_split base t p hin
        exact ⟨l₁, l₂ ++ planForest base ts,
          by simp [planForest, hsplit], hl₁⟩
      · simp only [planForest, List.mem_append] at hp
        rcases hp with hp | hp
        · exact absurd hp hin
        · obtain ⟨l₁, l₂, hsplit, hl₁⟩ := planForest_split base ts p hp
          refine ⟨planNode base t ++ l₁, l₂,
            by simp [planForest, hsplit], ?_⟩
          intro op hop
          rw [List.mem_append] at hop
          rcases hop with hop | hop
          · intro habs
            exact hin (planNode_anc base t op hop p
              (planForest_extends base ts (CopyOp.mkdirOp p) hp) habs)
          · exact hl₁ op hop
end

/-- C2: an uncancelled copy task over any source forest reaches terminal
status `succeeded` and the destination's recursive listing is structurally
identical to the source's in names, kinds and sizes; moreover every
destination directory's `mkdir` call is issued before any call below it —
directories are created before their contents are copied. -/
theorem copy_success_spec (t : FSForest) :
    (runCopyTask t none).status = TaskStatus.succeeded ∧
    (runCopyTask t none).dest.map DestEntry.item = listForest [] t ∧
    (∀ p, CopyOp.mkdirOp p ∈ planForest [] t →
      ∃ l₁ l₂, (runCopyTask t none).calls = l₁ ++ CopyOp.mkdirOp p :: l₂ ∧
        ∀ op ∈ l₁, ¬ leadsTo p op.opPath) := by
  obtain ⟨hst, hcalls, hdest⟩ := runOps_none (planForest [] t) initRun
  refine ⟨hst, ?_, ?_⟩
  · show (runOps none (planForest [] t) initRun).dest.map DestEntry.item = _
    rw [hdest]
    show ((planForest [] t).map CopyOp.destOf).map DestEntry.item = _
    rw [List.map_map]
    exact planForest_items [] t
  · intro p hp
    obtain ⟨l₁, l₂, hsplit, hl₁⟩ := planForest_split [] t p hp
    refine ⟨l₁, l₂, ?_, hl₁⟩
    show (runOps none (planForest [] t) initRun).calls = _
    rw [hcalls]
    show planForest [] t = _
    rw [hsplit]

/-- Closed witness for `copy_success_spec`: copying the demonstration tree
succeeds, and the nested directory-ordering conjunct applies concretely to
`d`, whose creation precedes the copy of `d/b.txt`. -/
theorem copy_success_spec_witness :
    (runCopyTask demoTree none).status = TaskStatus.succeeded ∧
    (∃ l₁ l₂,
      (runCopyTask demoTree none).calls = l₁ ++ CopyOp.mkdirOp ["d"] :: l₂ ∧
      ∀ op ∈ l₁, ¬ leadsTo ["d"] op.opPath) :=
  ⟨(copy_success_spec demoTree).1,
   (copy_success_spec demoTree).2.2 ["d"] (by decide)⟩

mutual
/-- Every call in a node's delete plan targets a path strictly below the
base. -/
theorem delNode_extends (base : FPath) (t : FSNode) :
    ∀ op ∈ delNode base t, leadsTo base op.delPath := by
  cases t with
  | file n sz =>
      intro op hop
      simp only [delNode, List.mem_singleton] at hop
      subst hop
      exact leadsTo_snoc base n
  | symlink n tg =>
      intro op hop
      simp only [delNode, List.mem_singleton] at hop
      subst hop
      exact leadsTo_snoc base n
  | dir n c =>
      intro op hop
      simp only [delNode, List.mem_append, List.mem_singleton] at hop
      rcases hop with hop | rfl
      · exact leadsTo_trans (leadsTo_snoc base n)
          (delForest_extends (base ++ [n]) c op hop)
      · exact leadsTo_snoc base n
/-- Forest version of `delNode_extends`. -/
theorem delForest_extends (base : FPath) (f : FSForest) :
    ∀ op ∈ delForest base f, leadsTo base op.delPath := by
  cases f with
  | nil =>
      intro op hop
      simp only [delForest, List.not_mem_nil] at hop
  | cons t ts =>
      intro op hop
      simp only [delForest, List.mem_append] at hop
      rcases hop with hop | hop
      · exact delNode_extends base t op hop
      · exact delForest_extends base ts op hop
end

mutual
/-- Ancestor closure of a node's delete plan: any strict ancestor `p` of a
deleted path that itself lies strictly below the base is a directory the
plan removes. -/
theorem delNode_anc (base : FPath) (t : FSNode) :
    ∀ op ∈ delNode base t, ∀ p, leadsTo base p → leadsTo p op.delPath →
      DelOp.rmdir p ∈ delNode base t := by
  cases t with
  | file n sz =>
      intro op hop p hbp hpq
      simp only [delNode, List.mem_singleton] at hop
      subst hop
      obtain ⟨u, hu, rfl⟩ := hbp
      obtain ⟨v, hv, hq⟩ := hpq
      simp only [DelOp.delPath, List.append_assoc] at hq
      exact (singleton_not_split hu hv (List.append_cancel_left hq)).elim
  | symlink n tg =>
      intro op hop p hbp hpq
      simp only [delNode, List.mem_singleton] at hop
      subst hop
      obtain ⟨u, hu, rfl⟩ := hbp
      obtain ⟨v, hv, hq⟩ := hpq
      simp only [DelOp.delPath, List.append_assoc] at hq
      exact (singleton_not_split hu hv (List.append_cancel_left hq)).elim
  | dir n c =>
      intro op hop p hbp hpq
      simp only [delNode, List.mem_append, List.mem_singleton] at hop ⊢
      rcases hop with hop | rfl
      · obtain ⟨u, hu, hp⟩ := hbp
        obtain ⟨w, hw, hq⟩ := delForest_extends (base ++ [n]) c op hop
        obtain ⟨v, hv, hq2⟩ := hpq
        have hkey : u ++ v = [n] ++ w := by
          have hbig : base ++ (u ++ v) = base ++ ([n] ++ w) := by
            rw [← List.append_assoc, ← hp, ← hq2, hq, List.append_assoc]
          exact List.append_cancel_left hbig
        cases u with
        | nil => exact absurd rfl hu
        | cons x xs =>
            simp only [List.cons_append, List.singleton_append,
              List.cons.injEq] at hkey
            obtain ⟨hxn, hkey2⟩ := hkey
            rw [hxn] at hp
            cases xs with
            | nil =>
                right
                rw [hp]
            | cons y ys =>
                left
                refine delForest_anc (base ++ [n]) c op hop p ?_ ⟨v, hv, hq2⟩
                refine ⟨y :: ys, by simp, ?_⟩
                rw [hp]
                simp
      · obtain ⟨u, hu, rfl⟩ := hbp
        obtain ⟨v, hv, hq⟩ := hpq
        simp only [DelOp.delPath, List.append_assoc] at hq
        exact (singleton_not_split hu hv (List.append_cancel_left hq)).elim
/-- Forest version of `delNode_anc`. -/
theorem delForest_anc (base : FPath) (f : FSForest) :
    ∀ op ∈ delForest base f, ∀ p, leadsTo base p → leadsTo p op.delPath →
      DelOp.rmdir p ∈ delForest base f := by
  cases f with
  | nil =>
      intro op hop
      simp only [delForest, List.not_mem_nil] at hop
  | cons t ts =>
      intro op hop p hbp hpq
      simp only [delForest, List.mem_append] at hop ⊢
      rcases hop with hop | hop
      · exact Or.inl (delNode_anc base t op hop p hbp hpq)
      · exact Or.inr (delForest_anc base ts op hop p hbp hpq)
end

mutual
/-- Post-order split: within a node's delete plan, a directory's `rmdir`
call is issued only after every call below that directory — nothing below
it is touched afterwards. -/
theorem delNode_split (base : FPath) (t : FSNode) :
    ∀ p, DelOp.rmdir p ∈ delNode base t →
      ∃ l₁ l₂, delNode base t = l₁ ++ DelOp.rmdir p :: l₂ ∧
        ∀ op ∈ l₂, ¬ leadsTo p op.delPath := by
  cases t with
  | file n sz =>
      intro p hp
      simp only [delNode, List.mem_singleton] at hp
      cases hp
  | symlink n tg =>
      intro p hp
      simp only [delNode, List.mem_singleton] at hp
      cases hp
  | dir n c =>
      intro p hp
      simp only [delNode, List.mem_append, List.mem_singleton,
        DelOp.rmdir.injEq] at hp
      rcases hp with hp | hp
      · obtain ⟨l₁, l₂, hsplit, hl₂⟩ := delForest_split (base ++ [n]) c p hp
        refine ⟨l₁, l₂ ++ [DelOp.rmdir (base ++ [n])],
          by simp [delNode, hsplit], ?_⟩
        intro op hop
        rw [List.mem_append, List.mem_singleton] at hop
        rcases hop with hop | rfl
        · exact hl₂ op hop
        · intro habs
          have h1 := leadsTo_length habs
          have h2 := leadsTo_length
            (delForest_extends (base ++ [n]) c (DelOp.rmdir p)
              (by exact hp))
          simp only [DelOp.delPath] at h1 h2
          omega
      · subst hp
        refine ⟨delForest (base ++ [n]) c, [], by simp [delNode], ?_⟩
        intro op hop
        simp only [List.not_mem_nil] at hop
/-- Forest version of `delNode_split`. -/
theorem delForest_split (base : FPath) (f : FSForest) :
    ∀ p, DelOp.rmdir p ∈ delForest base f →
      ∃ l₁ l₂, delForest base f = l₁ ++ DelOp.rmdir p :: l₂ ∧
        ∀ op ∈ l₂, ¬ leadsTo p op.delPath := by
  cases f with
  | nil =>
      intro p hp
      simp only [delForest, List.not_mem_nil] at hp
  | cons t ts =>
      intro p hp
      by_cases hin : DelOp.rmdir p ∈ delForest base ts
      · obtain ⟨l₁, l₂, hsplit, hl₂⟩ := delForest_split base ts p hin
        exact ⟨delNode base t ++ l₁, l₂,
          by simp [delForest, hsplit], hl₂⟩
      · simp only [delForest, List.mem_append] at hp
        rcases hp with hp | hp
        · obtain ⟨l₁, l₂, hsplit, hl₂⟩ := delNode_split base t p hp
          refine ⟨l₁, l₂ ++ delForest base ts,
            by simp [delForest, hsplit], ?_⟩
          intro op hop
          rw [List.mem_append] at hop
          rcases hop with hop | hop
          · exact hl₂ op hop
          · intro habs
            exact hin (delForest_anc base ts op hop p
              (delNode_extends base t (DelOp.rmdir p) hp) habs)
        · exact absurd hp hin
end

mutual
/-- Every symlink in a node is removed as a link: its `unlinkLink` call is
part of the delete plan. -/
theorem symlink_removed_node (base : FPath) (t : FSNode) :
    ∀ sp ∈ nodeSymPaths base t, DelOp.unlinkLink sp ∈ delNode base t := by
  cases t with
  | file n sz =>
      intro sp hsp
      simp only [nodeSymPaths, List.not_mem_nil] at hsp
  | symlink n tg =>
      intro sp hsp
      simp only [nodeSymPaths, List.mem_singleton] at hsp
      subst hsp
      simp [delNode]
  | dir n c =>
      intro sp hsp
      simp only [nodeSymPaths] at hsp
      simp only [delNode, List.mem_append, List.mem_singleton]
      exact Or.inl (symlink_removed_forest (base ++ [n]) c sp hsp)
/-- Forest version of `symlink_removed_node`. -/
theorem symlink_removed_forest (base : FPath) (f : FSForest) :
    ∀ sp ∈ forestSymPaths base f, DelOp.unlinkLink sp ∈ delForest base f := by
  cases f with
  | nil =>
      intro sp hsp
      simp only [forestSymPaths, List.not_mem_nil] at hsp
  | cons t ts =>
      intro sp hsp
      simp only [forestSymPaths, List.mem_append] at hsp
      simp only [delForest, List.mem_append]
      rcases hsp with hsp | hsp
      · exact Or.inl (symlink_removed_node base t sp hsp)
      · exact Or.inr (symlink_removed_forest base ts sp hsp)
end

mutual
/-- Every delete call of one node targets a path opening with that node's
own name after the base. -/
theorem delNode_head (base : FPath) (t : FSNode) :
    ∀ op ∈ delNode base t, ∃ w, op.delPath = base ++ nodeName t :: w := by
  cases t with
  | file n sz =>
      intro op hop
      simp only [delNode, List.mem_singleton] at hop
      subst hop
      exact ⟨[], rfl⟩
  | symlink n tg =>
      intro op hop
      simp only [delNode, List.mem_singleton] at hop
      subst hop
      exact ⟨[], rfl⟩
  | dir n c =>
      intro op hop
      simp only [delNode, List.mem_append, List.mem_singleton] at hop
      rcases hop with hop | rfl
      · obtain ⟨r, hr, w, hw⟩ := delForest_head (base ++ [n]) c op hop
        exact ⟨r :: w, by rw [hw]; simp [nodeName]⟩
      · exact ⟨[], rfl⟩
/-- Every delete call of a forest targets a path opening with one of the
forest's root names after the base. -/
theorem delForest_head (base : FPath) (f : FSForest) :
    ∀ op ∈ delForest base f,
      ∃ r, r ∈ rootNames f ∧ ∃ w, op.delPath = base ++ r :: w := by
  cases f with
  | nil =>
      intro op hop
      simp only [delForest, List.not_mem_nil] at hop
  | cons t ts =>
      intro op hop
      simp only [delForest, List.mem_append] at hop
      simp only [rootNames, List.mem_cons]
      rcases hop with hop | hop
      · obtain ⟨w, hw⟩ := delNode_head base t op hop
        exact ⟨nodeName t, Or.inl rfl, w, hw⟩
      · obtain ⟨r, hr, w, hw⟩ := delForest_head base ts op hop
        exact ⟨r, Or.inr hr, w, hw⟩
end

mutual
/-- Every symlink path of one node opens with that node's own name after
the base. -/
theorem symPaths_node_head (base : FPath) (t : FSNode) :
    ∀ sp ∈ nodeSymPaths base t, ∃ w, sp = base ++ nodeName t :: w := by
  cases t with
  | file n sz =>
      intro sp hsp
      simp only [nodeSymPaths, List.not_mem_nil] at hsp
  | symlink n tg =>
      intro sp hsp
      simp only [nodeSymPaths, List.mem_singleton] at hsp
      subst hsp
      exact ⟨[], rfl⟩
  | dir n c =>
      intro sp hsp
      simp only [nodeSymPaths] at hsp
      obtain ⟨r, hr, w, hw⟩ := symPaths_forest_head (base ++ [n]) c sp hsp
      exact ⟨r :: w, by rw [hw]; simp [nodeName]⟩
/-- Every symlink path of a forest opens with one of the forest's root
names after the base. -/
theorem symPaths_forest_head (base : FPath) (f : FSForest) :
    ∀ sp ∈ forestSymPaths base f,
      ∃ r, r ∈ rootNames f ∧ ∃ w, sp = base ++ r :: w := by
  cases f with
  | nil =>
      intro sp hsp
      simp only [forestSymPaths, List.not_mem_nil] at hsp
  | cons t ts =>
      intro sp hsp
      simp only [forestSymPaths, List.mem_append] at hsp
      simp only [rootNames, List.mem_cons]
      rcases hsp with hsp | hsp
      · obtain ⟨w, hw⟩ := symPaths_node_head base t sp hsp
        exact ⟨nodeName t, Or.inl rfl, w, hw⟩
      · obtain ⟨r, hr, w, hw⟩ := symPaths_forest_head base ts sp hsp
        exact ⟨r, Or.inr hr, w, hw⟩
end

/-- Two sibling subtrees with distinct opening names cannot contain a path
of one strictly below a path of the other. -/
theorem disjoint_heads_not_leadsTo {base : FPath} {n1 n2 : String}
    {w1 w2 : List String} (hne : n1 ≠ n2) :
    ¬ leadsTo (base ++ n1 :: w1) (base ++ n2 :: w2) := by
  rintro ⟨s, hs, heq⟩
  rw [List.append_assoc] at heq
  have := List.append_cancel_left heq
  simp only [List.cons_append, List.cons.injEq] at this
  exact hne this.1.symm

mutual
/-- In a well-formed node, no delete call targets a path strictly below a
symlink: symlinks are never dereferenced into their targets. -/
theorem no_deref_node (base : FPath) (t : FSNode) :
    wfNode t = true → ∀ sp ∈ nodeSymPaths base t, ∀ op ∈ delNode base t,
      ¬ leadsTo sp op.delPath := by
  cases t with
  | file n sz =>
      intro _ sp hsp
      simp only [nodeSymPaths, List.not_mem_nil] at hsp
  | symlink n tg =>
      intro _ sp hsp op hop
      simp only [nodeSymPaths, List.mem_singleton] at hsp
      simp only [delNode, List.mem_singleton] at hop
      subst hsp
      subst hop
      intro habs
      have := leadsTo_length habs
      simp only [DelOp.delPath] at this
      omega
  | dir n c =>
      intro hwf sp hsp op hop
      simp only [wfNode] at hwf
      simp only [nodeSymPaths] at hsp
      simp only [delNode, List.mem_append, List.mem_singleton] at hop
      rcases hop with hop | rfl
      · exact no_deref_forest (base ++ [n]) c hwf sp hsp op hop
      · intro habs
        obtain ⟨r, _, w, hw⟩ := symPaths_forest_head (base ++ [n]) c sp hsp
        have h1 := leadsTo_length habs
        have h2 : sp.length > (base ++ [n]).length := by
          rw [hw]
          simp
        simp only [DelOp.delPath] at h1
        omega
/-- Forest version of `no_deref_node`: requires pairwise-distinct sibling
names so a symlink's path cannot alias a sibling subtree's. -/
theorem no_deref_forest (base : FPath) (f : FSForest) :
    wfForest f = true → ∀ sp ∈ forestSymPaths base f, ∀ op ∈ delForest base f,
      ¬ leadsTo sp op.delPath := by
  cases f with
  | nil =>
      intro _ sp hsp
      simp only [forestSymPaths, List.not_mem_nil] at hsp
  | cons t ts =>
      intro hwf sp hsp op hop
      simp only [wfForest, Bool.and_eq_true, Bool.not_eq_true'] at hwf
      obtain ⟨⟨hwt, hname⟩, hwts⟩ := hwf
      have hnmem : nodeName t ∉ rootNames ts := by
        simpa using hname
      simp only [forestSymPaths, List.mem_append] at hsp
      simp only [delForest, List.mem_append] at hop
      rcases hsp with hsp | hsp <;> rcases hop with hop | hop
      · exact no_deref_node base t hwt sp hsp op hop
      · obtain ⟨w1, hw1⟩ := symPaths_node_head base t sp hsp
        obtain ⟨r, hr, w2, hw2⟩ := delForest_head base ts op hop
        rw [hw1, hw2]
        exact disjoint_heads_not_leadsTo (fun he => hnmem (he ▸ hr))
      · obtain ⟨r, hr, w1, hw1⟩ := symPaths_forest_head base ts sp hsp
        obtain ⟨w2, hw2⟩ := delNode_head base t op hop
        rw [hw1, hw2]
        exact disjoint_heads_not_leadsTo (fun he => hnmem (he ▸ hr))
      · exact no_deref_forest base ts hwts sp hsp op hop

end

/-- C6: a delete task removes entries in post-order — each directory's
`rmdir` is issued only after every call below it, so a directory is removed
only after its contents — every symlink is removed by an `unlinkLink` call,
no call ever targets a path below a symlink (links are never dereferenced
into their targets; this conjunct assumes distinct sibling names, as real
directories guarantee), and after a succeeded delete a refresh of the
parent directory no longer lists the deleted root. -/
theorem delete_postorder_spec (t : FSForest) :
    (∀ p, DelOp.rmdir p ∈ delForest [] t →
      ∃ l₁ l₂, delForest [] t = l₁ ++ DelOp.rmdir p :: l₂ ∧
        ∀ op ∈ l₂, ¬ leadsTo p op.delPath) ∧
    (∀ sp ∈ forestSymPaths [] t, DelOp.unlinkLink sp ∈ delForest [] t) ∧
    (wfForest t = true → ∀ sp ∈ forestSymPaths [] t,
      ∀ op ∈ delForest [] t, ¬ leadsTo sp op.delPath) ∧
    (∀ (pst : PanelState) (es : List DirectoryEntry) (root newPath : String),
      root ∉ (refresh pst newPath
        (Except.ok (afterDelete es root))).entries.map DirectoryEntry.path) := by
  refine ⟨fun p hp => delForest_split [] t p hp,
    fun sp hsp => symlink_removed_forest [] t sp hsp,
    fun hwf sp hsp op hop => no_deref_forest [] t hwf sp hsp op hop, ?_⟩
  intro pst es root newPath hmem
  rw [List.mem_map] at hmem
  obtain ⟨e, he, hpath⟩ := hmem
  have he2 : e ∈ afterDelete es root := by
    have he3 : e ∈ sortEntries pst.sortKey pst.sortAsc (afterDelete es root) := he
    exact (List.mem_insertionSort (entryRel pst.sortKey pst.sortAsc)).mp he3
  rw [afterDelete, List.mem_filter] at he2
  have := he2.2
  rw [decide_eq_true_eq] at this
  exact this hpath

/-- Closed witness for `delete_postorder_spec`: on the demonstration tree
the post-order conjunct applies concretely to the directory `d`, and the
symlink `l` is removed as a link. -/
theorem delete_postorder_spec_witness :
    (∃ l₁ l₂, delForest [] demoLinkTree = l₁ ++ DelOp.rmdir ["d"] :: l₂ ∧
      ∀ op ∈ l₂, ¬ leadsTo ["d"] op.delPath) ∧
    DelOp.unlinkLink ["l"] ∈ delForest [] demoLinkTree :=
  ⟨(delete_postorder_spec demoLinkTree).1 ["d"] (by decide),
   (delete_postorder_spec demoLinkTree).2.1 ["l"] (by decide)⟩

/-- The clamped cursor is valid: inside the range when the list is
non-empty, the sentinel 0 when it is empty. -/
theorem clampCursor_valid (len c : Nat) :
    (len ≠ 0 → clampCursor len c < len) ∧ (len = 0 → clampCursor len c = 0) := by
  unfold clampCursor
  constructor
  · intro h
    rw [if_neg h]
    have := Nat.min_le_right c (len - 1)
    omega
  · intro h
    rw [if_pos h]

/-- Sorting preserves the length of the entry list. -/
theorem sortEntries_length (k : SortKey) (d : Bool) (l : List DirectoryEntry) :
    (sortEntries k d l).length = l.length :=
  List.length_insertionSort _ _

/-- Sorting yields the empty list exactly on the empty list. -/
theorem sortEntries_nil_iff (k : SortKey) (d : Bool) (l : List DirectoryEntry) :
    sortEntries k d l = [] ↔ l = [] := by
  rw [← List.length_eq_zero, sortEntries_length, List.length_eq_zero]

/-- Sorting preserves membership in the entry path list. -/
theorem sortEntries_mem_path (k : SortKey) (d : Bool)
    (l : List DirectoryEntry) (s : String) :
    s ∈ (sortEntries k d l).map DirectoryEntry.path ↔
      s ∈ l.map DirectoryEntry.path := by
  constructor <;> intro h
  · rw [List.mem_map] at h ⊢
    obtain ⟨e, he, rfl⟩ := h
    exact ⟨e, (List.mem_insertionSort _).mp he, rfl⟩
  · rw [List.mem_map] at h ⊢
    obtain ⟨e, he, rfl⟩ := h
    exact ⟨e, (List.mem_insertionSort _).mpr he, rfl⟩

/-- A successful refresh yields a valid panel regardless of the previous
state: cursor re-validated, selection restricted to listed paths. -/
theorem refresh_ok_inv (p : PanelState) (path : String)
    (es : List DirectoryEntry) :
    PanelInv (refresh p path (Except.ok es)) := by
  refine ⟨?_, ?_, ?_⟩
  · show sortEntries p.sortKey p.sortAsc es ≠ [] →
      clampCursor (sortEntries p.sortKey p.sortAsc es).length p.cursor <
        (sortEntries p.sortKey p.sortAsc es).length
    intro hne
    exact (clampCursor_valid _ _).1
      (fun h0 => hne (List.length_eq_zero.mp h0))
  · show sortEntries p.sortKey p.sortAsc es = [] →
      clampCursor (sortEntries p.sortKey p.sortAsc es).length p.cursor = 0
    intro hemp
    exact (clampCursor_valid _ _).2 (by rw [hemp]; rfl)
  · show ∀ s ∈ p.selected.filter
        (fun s => decide (s ∈ (sortEntries p.sortKey p.sortAsc es).map
          DirectoryEntry.path)),
      s ∈ (sortEntries p.sortKey p.sortAsc es).map DirectoryEntry.path
    intro s hs
    rw [List.mem_filter] at hs
    exact decide_eq_true_eq.mp hs.2

/-- `setSort` yields a valid panel: re-sorting permutes the entries, so the
cursor range and the listed path set are unchanged. -/
theorem setSort_inv (p : PanelState) (k : SortKey) (h : PanelInv p) :
    PanelInv (setSort p k) := by
  obtain ⟨h1, h2, h3⟩ := h
  unfold setSort
  by_cases hk : k = p.sortKey
  · rw [if_pos hk]
    refine ⟨?_, ?_, ?_⟩
    · intro hne
      show p.cursor < (sortEntries p.sortKey (!p.sortAsc) p.entries).length
      rw [sortEntries_length]
      exact h1 (fun hemp => hne (by
        show sortEntries p.sortKey (!p.sortAsc) p.entries = []
        rw [(sortEntries_nil_iff _ _ _).mpr hemp]))
    · intro hemp
      exact h2 ((sortEntries_nil_iff _ _ _).mp hemp)
    · intro s hs
      show s ∈ (sortEntries p.sortKey (!p.sortAsc) p.entries).map
        DirectoryEntry.path
      rw [sortEntries_mem_path]
      exact h3 s hs
  · rw [if_neg hk]
    refine ⟨?_, ?_, ?_⟩
    · intro hne
      show p.cursor < (sortEntries k true p.entries).length
      rw [sortEntries_length]
      exact h1 (fun hemp => hne (by
        show sortEntries k true p.entries = []
        rw [(sortEntries_nil_iff _ _ _).mpr hemp]))
    · intro hemp
      exact h2 ((sortEntries_nil_iff _ _ _).mp hemp)
    · intro s hs
      show s ∈ (sortEntries k true p.entries).map DirectoryEntry.path
      rw [sortEntries_mem_path]
      exact h3 s hs

/-- `toggleSelect` yields a valid panel: it only admits listed paths. -/
theorem toggleSelect_inv (p : PanelState) (path : String) (h : PanelInv p) :
    PanelInv (toggleSelect p path) := by
  obtain ⟨h1, h2, h3⟩ := h
  unfold toggleSelect
  by_cases hmem : path ∈ p.entries.map DirectoryEntry.path
  · rw [if_pos hmem]
    by_cases hsel : path ∈ p.selected
    · rw [if_pos hsel]
      exact ⟨h1, h2, fun s hs => h3 s (List.mem_of_mem_erase hs)⟩
    · rw [if_neg hsel]
      refine ⟨h1, h2, ?_⟩
      intro s hs
      rw [List.mem_cons] at hs
      rcases hs with rfl | hs
      · exact hmem
      · exact h3 s hs
  · rw [if_neg hmem]
    exact ⟨h1, h2, h3⟩

/-- `selectAll` yields a valid panel: it selects either nothing or exactly
the listed paths. -/
theorem selectAll_inv (p : PanelState) (h : PanelInv p) :
    PanelInv (selectAll p) := by
  obtain ⟨h1, h2, h3⟩ := h
  unfold selectAll
  by_cases hall : (p.entries.map DirectoryEntry.path).all
      (fun n => decide (n ∈ p.selected)) = true
  · rw [if_pos hall]
    exact ⟨h1, h2, fun s hs => absurd hs (List.not_mem_nil s)⟩
  · rw [if_neg hall]
    exact ⟨h1, h2, fun s hs => hs⟩

/-- `clearSelection` yields a valid panel. -/
theorem clearSelection_inv (p : PanelState) (h : PanelInv p) :
    PanelInv (clearSelection p) :=
  ⟨h.1, h.2.1, fun s hs => absurd hs (List.not_mem_nil s)⟩

/-- Every cursor movement yields a valid panel. -/
theorem moveCursor_inv (p : PanelState) (m : CursorMove) (h : PanelInv p) :
    PanelInv (moveCursor p m) := by
  obtain ⟨_, _, h3⟩ := h
  unfold moveCursor
  refine ⟨?_, ?_, h3⟩
  · intro hne
    exact (clampCursor_valid _ _).1
      (fun h0 => hne (List.length_eq_zero.mp h0))
  · intro hemp
    exact (clampCursor_valid _ _).2 (by rw [hemp]; rfl)

/-- `navigate` yields a valid panel: directories refresh, symlinks resolve
one level at a time and recurse, files leave the panel unchanged. -/
theorem navigate_inv (p : PanelState) (e : DirectoryEntry)
    (resolution : List DirectoryEntry)
    (r : Except FMError (List DirectoryEntry)) (h : PanelInv p) :
    PanelInv (navigate p e resolution r) := by
  induction resolution generalizing e with
  | nil =>
      unfold navigate
      by_cases hk : e.kind = EntryKind.directory
      · rw [if_pos hk]
        cases r with
        | error err => exact ⟨h.1, h.2.1, h.2.2⟩
        | ok es =>
            have hr := refresh_ok_inv p e.path es
            exact ⟨hr.1, hr.2.1, hr.2.2⟩
      · rw [if_neg hk]
        by_cases hs : e.kind = EntryKind.symlink
        · rw [if_pos hs]
          exact h
        · rw [if_neg hs]
          exact h
  | cons e2 rest ih =>
      unfold navigate
      by_cases hk : e.kind = EntryKind.directory
      · rw [if_pos hk]
        cases r with
        | error err => exact ⟨h.1, h.2.1, h.2.2⟩
        | ok es =>
            have hr := refresh_ok_inv p e.path es
            exact ⟨hr.1, hr.2.1, hr.2.2⟩
      · rw [if_neg hk]
        by_cases hs : e.kind = EntryKind.symlink
        · rw [if_pos hs]
          exact ih e2
        · rw [if_neg hs]
          exact h

/-- C7: every panel operation preserves the `PanelState` invariants — the
cursor stays inside `0 ≤ cursor < len(entries)` when the entry list is
non-empty (0 being the empty sentinel) and every selected path is listed —
and a successful refresh keeps exactly those previously selected paths that
are still listed, dropping the rest. -/
theorem panel_invariant_spec (op : PanelOp) (p : PanelState)
    (h : PanelInv p) :
    PanelInv (applyOp op p) ∧
    (∀ (path : String) (es : List DirectoryEntry) (s : String),
      s ∈ (refresh p path (Except.ok es)).selected ↔
        (s ∈ p.selected ∧
          s ∈ (sortEntries p.sortKey p.sortAsc es).map DirectoryEntry.path)) := by
  constructor
  · cases op with
    | refreshOp path r =>
        cases r with
        | error err => exact ⟨h.1, h.2.1, h.2.2⟩
        | ok es => exact refresh_ok_inv p path es
    | navigateOp e resolution r => exact navigate_inv p e resolution r h
    | toggleSelectOp path => exact toggleSelect_inv p path h
    | selectAllOp => exact selectAll_inv p h
    | clearSelectionOp => exact clearSelection_inv p h
    | setSortOp k => exact setSort_inv p k h
    | moveCursorOp m => exact moveCursor_inv p m h
  · intro path es s
    show s ∈ p.selected.filter
      (fun s => decide (s ∈ (sortEntries p.sortKey p.sortAsc es).map
        DirectoryEntry.path)) ↔ _
    rw [List.mem_filter, decide_eq_true_eq]

/-- Closed witness for `panel_invariant_spec`: the demonstration panel is
valid and stays valid after toggling a selection. -/
theorem panel_invariant_spec_witness :
    PanelInv demoPanel ∧
    PanelInv (applyOp (PanelOp.toggleSelectOp "/tmp/src/b.txt") demoPanel) :=
  ⟨by decide,
   (panel_invariant_spec (PanelOp.toggleSelectOp "/tmp/src/b.txt") demoPanel
     (by decide)).1⟩

/-- Mutual comparability under any `pinLe` comparator forces equal display
names: the comparator's final tie-break is the name itself. -/
theorem pinLe_antisymm_name {β : Type} [LinearOrder β]
    (f : DirectoryEntry → β) (a b : DirectoryEntry) :
    pinLe f a b → pinLe f b a → a.name = b.name := by
  intro h1 h2
  unfold pinLe at h1 h2
  rcases h1 with h1 | ⟨h1, h1k⟩ <;> rcases h2 with h2 | ⟨h2, h2k⟩
  · exact absurd h2 (lt_asymm h1)
  · exact absurd h1 (by rw [h2]; exact lt_irrefl _)
  · exact absurd h2 (by rw [h1]; exact lt_irrefl _)
  · rcases h1k with hf | ⟨hf, hn⟩ <;> rcases h2k with hf2 | ⟨hf2, hn2⟩
    · exact absurd hf2 (lt_asymm hf)
    · exact absurd hf (by rw [hf2]; exact lt_irrefl _)
    · exact absurd hf2 (by rw [hf]; exact lt_irrefl _)
    · have hd := le_antisymm hn hn2
      revert hd
      show a.name.data = b.name.data → a.name = b.name
      intro hd
      cases hname : a.name
      cases hname2 : b.name
      rw [hname, hname2] at hd
      cases hd
      rfl

/-- Mutual comparability under any key/direction comparator forces equal
display names. -/
theorem entryRel_antisymm_name (k : SortKey) (d : Bool)
    (a b : DirectoryEntry) :
    entryRel k d a b → entryRel k d b a → a.name = b.name := by
  cases k <;> cases d <;> (
    simp only [entryRel]
    exact pinLe_antisymm_name _ a b)

/-- In a list with pairwise-distinct names, equal names identify equal
elements. -/
theorem name_eq_of_mem_pairwise {l : List DirectoryEntry}
    {a b : DirectoryEntry}
    (hl : l.Pairwise (fun x y => x.name ≠ y.name)) (ha : a ∈ l) (hb : b ∈ l)
    (hn : a.name = b.name) : a = b := by
  induction l with
  | nil => cases ha
  | cons x xs ih =>
      rw [List.pairwise_cons] at hl
      rcases List.mem_cons.mp ha with rfl | ha2
      · rcases List.mem_cons.mp hb with rfl | hb2
        · rfl
        · exact absurd hn (hl.1 b hb2)
      · rcases List.mem_cons.mp hb with rfl | hb2
        · exact absurd hn.symm (hl.1 a ha2)
        · exact ih hl.2 ha2 hb2

/-- Two sorted permutations of a distinct-name entry list coincide: the
name tie-break makes the comparator antisymmetric on such lists. -/
theorem eq_of_perm_sorted_names {r : DirectoryEntry → DirectoryEntry → Prop}
    (hanti : ∀ a b, r a b → r b a → a.name = b.name) :
    ∀ {l₁ l₂ : List DirectoryEntry}, l₁.Perm l₂ →
      l₁.Sorted r → l₂.Sorted r →
      l₁.Pairwise (fun x y => x.name ≠ y.name) → l₁ = l₂ := by
  intro l₁
  induction l₁ with
  | nil =>
      intro l₂ hp _ _ _
      exact (hp.symm.eq_nil).symm
  | cons x xs ih =>
      intro l₂ hp hs1 hs2 hd
      cases l₂ with
      | nil =>
          have := hp.eq_nil
          cases this
      | cons y ys =>
          have hxy : x = y := by
            rcases List.mem_cons.mp (hp.symm.subset (List.mem_cons_self y ys))
              with h | hy2
            · exact h.symm
            · rcases List.mem_cons.mp (hp.subset (List.mem_cons_self x xs))
                with h | hx2
              · exact h
              · have hrxy : r x y := (List.sorted_cons.mp hs1).1 y hy2
                have hryx : r y x := (List.sorted_cons.mp hs2).1 x hx2
                exact name_eq_of_mem_pairwise hd (List.mem_cons_self x xs)
                  (List.mem_cons_of_mem x hy2) (hanti x y hrxy hryx)
          subst hxy
          have htail := ih hp.cons_inv (List.sorted_cons.mp hs1).2
            (List.sorted_cons.mp hs2).2 (List.pairwise_cons.mp hd).2
          rw [htail]

/-- The sorted entry list is sorted by the active comparator. -/
theorem sortEntries_sorted (k : SortKey) (d : Bool)
    (l : List DirectoryEntry) :
    (sortEntries k d l).Sorted (entryRel k d) :=
  List.sorted_insertionSort _ l

/-- Sorting permutes the entry list. -/
theorem sortEntries_perm (k : SortKey) (d : Bool)
    (l : List DirectoryEntry) : (sortEntries k d l).Perm l :=
  List.perm_insertionSort _ l

/-- Re-sorting by the same key after an intermediate sort in any direction
yields the same result as sorting the original list directly, provided the
display names are pairwise distinct (as in any real directory listing). -/
theorem sortEntries_sortEntries (k : SortKey) (d d2 : Bool)
    (l : List DirectoryEntry)
    (hnames : l.Pairwise (fun a b => a.name ≠ b.name)) :
    sortEntries k d (sortEntries k d2 l) = sortEntries k d l := by
  have hperm : (sortEntries k d (sortEntries k d2 l)).Perm
      (sortEntries k d l) :=
    ((sortEntries_perm k d _).trans (sortEntries_perm k d2 l)).trans
      (sortEntries_perm k d l).symm
  apply eq_of_perm_sorted_names (entryRel_antisymm_name k d) hperm
    (sortEntries_sorted k d _) (sortEntries_sorted k d l)
  have hsym : Symmetric (fun a b : DirectoryEntry => a.name ≠ b.name) :=
    fun _ _ h => h.symm
  exact (((sortEntries_perm k d _).trans (sortEntries_perm k d2 l)).pairwise_iff
    @hsym).mpr hnames

/-- A list already sorted by the active comparator is left unchanged. -/
theorem sortEntries_of_sorted {k : SortKey} {d : Bool}
    {l : List DirectoryEntry} (h : l.Sorted (entryRel k d)) :
    sortEntries k d l = l :=
  h.insertionSort_eq

/-- C8: `setSort` on the current key flips the direction and keeps the key;
`setSort` on a different key installs that key with ascending direction;
and applying `setSort` on the current key twice returns the panel — key,
direction and entry order — to its original state, for any panel whose
entries are consistently sorted and carry distinct names. -/
theorem setSort_toggle_spec (p : PanelState) (k : SortKey)
    (hnames : p.entries.Pairwise (fun a b => a.name ≠ b.name))
    (hsorted : p.entries = sortEntries p.sortKey p.sortAsc p.entries) :
    ((setSort p p.sortKey).sortKey = p.sortKey ∧
      (setSort p p.sortKey).sortAsc = !p.sortAsc) ∧
    (k ≠ p.sortKey → (setSort p k).sortKey = k ∧ (setSort p k).sortAsc = true) ∧
    setSort (setSort p p.sortKey) p.sortKey = p := by
  have h1 : setSort p p.sortKey =
      { p with sortAsc := !p.sortAsc,
               entries := sortEntries p.sortKey (!p.sortAsc) p.entries } := by
    unfold setSort
    rw [if_pos rfl]
  refine ⟨?_, ?_, ?_⟩
  · rw [h1]
    exact ⟨rfl, rfl⟩
  · intro hk
    have h2 : setSort p k =
        { p with sortKey := k, sortAsc := true,
                 entries := sortEntries k true p.entries } := by
      unfold setSort
      rw [if_neg hk]
    rw [h2]
    exact ⟨rfl, rfl⟩
  · rw [h1]
    unfold setSort
    rw [if_pos rfl]
    show ({ p with
      sortAsc := !(!p.sortAsc),
      entries := sortEntries p.sortKey (!(!p.sortAsc))
        (sortEntries p.sortKey (!p.sortAsc) p.entries) } : PanelState) = p
    rw [Bool.not_not, sortEntries_sortEntries p.sortKey p.sortAsc (!p.sortAsc)
      p.entries hnames, ← hsorted]

/-- Closed witness for `setSort_toggle_spec`: on the demonstration panel a
double toggle of the name key restores the panel, and a single toggle flips
the direction. -/
theorem setSort_toggle_spec_witness :
    setSort (setSort demoPanel demoPanel.sortKey) demoPanel.sortKey
        = demoPanel ∧
    (setSort demoPanel demoPanel.sortKey).sortAsc = !demoPanel.sortAsc :=
  ⟨(setSort_toggle_spec demoPanel SortKey.size (by decide) (by decide)).2.2,
   (setSort_toggle_spec demoPanel SortKey.size (by decide) (by decide)).1.2⟩

end Cokacdir
